import Mathlib

/-!
Verification of the PixelSort plugin core (PIPixelSort.h, PISpanDetector.h,
PIPixelSortMain.cpp) against its specification.

Shallow embedding conventions:
* `BYTE` channel values are naturals (the code keeps them in [0,255]; where a
  claim needs this range it is a hypothesis).
* C `float`/`double` arithmetic on sort keys is modelled exactly over `ℚ`
  (the float literals 0.299f etc. are taken at their decimal value); the
  transcendental parts (`sin`, `cos`, `sqrt`) are modelled over `ℝ`.
* C `int` division (`/`, truncation toward zero) is `Int.tdiv`; the
  `static_cast<BYTE>` of an `int` is reduction mod 256; `static_cast<int>` of
  a nonnegative floating value is the floor.
* `std::mt19937` together with `std::uniform_int_distribution(lo,hi)` is
  modelled as a deterministic stream of naturals consumed one value per draw,
  a draw in [lo,hi] being `lo + stream value % (hi - lo + 1)`; the standard
  fixes the engine but leaves the distribution mapping implementation-defined,
  and no claim depends on the exact mapped values, only on determinism and on
  the [lo,hi] range guarantee.
* `std::sort` (used by SortLine) guarantees only a permutation that is sorted
  by the comparator; tie order is unspecified.  SortLine is therefore
  parameterised by the sort routine `sortFn`, and `SortSpec sortFn` states
  exactly the std::sort contract.
-/

namespace PixelSort

/-- One 8-bit RGB pixel; channels are naturals (BYTE in the source). -/
structure Pixel where
  r : ℕ
  g : ℕ
  b : ℕ
deriving DecidableEq, Repr

/-- The zero (black) pixel, the background value used by buffer fills. -/
def pixZero : Pixel := ⟨0, 0, 0⟩

/-- SortDirection enum from PIPixelSort.h. -/
inductive SortDirection where
  | horizontal
  | vertical
deriving DecidableEq, Repr

/-- SortKey enum from PIPixelSort.h. -/
inductive SortKey where
  | brightness
  | hue
  | saturation
  | intensity
  | minimum
  | red
  | green
  | blue
deriving DecidableEq, Repr

/-- IntervalMode enum from PIPixelSort.h. -/
inductive IntervalMode where
  | threshold
  | random
  | edges
  | waves
  | none
deriving DecidableEq, Repr

/-- PixelSortParams from PIPixelSort.h. -/
structure PixelSortParams where
  direction : SortDirection
  sortKey : SortKey
  intervalMode : IntervalMode
  lowerThreshold : ℕ
  upperThreshold : ℕ
  reverse : Bool
  jitter : ℕ
  spanMin : ℕ
  spanMax : ℕ
  angle : ℕ
  falloff : ℕ
deriving DecidableEq, Repr

/-- MakeDefaultParams from PIPixelSort.h. -/
def MakeDefaultParams : PixelSortParams :=
  { direction := .horizontal
    sortKey := .brightness
    intervalMode := .threshold
    lowerThreshold := 64
    upperThreshold := 204
    reverse := false
    jitter := 0
    spanMin := 1
    spanMax := 0
    angle := 0
    falloff := 0 }

/-- The ranges ClampParams establishes (spec section 3): a Params value
reaching the core always satisfies this. -/
def ParamsValid (p : PixelSortParams) : Prop :=
  p.lowerThreshold ≤ p.upperThreshold ∧ p.upperThreshold ≤ 255 ∧
  p.jitter ≤ 100 ∧ 1 ≤ p.spanMin ∧ p.spanMin ≤ 10000 ∧
  (p.spanMax = 0 ∨ (p.spanMin ≤ p.spanMax ∧ p.spanMax ≤ 10000)) ∧
  p.angle ≤ 359 ∧ p.falloff ≤ 100

instance (p : PixelSortParams) : Decidable (ParamsValid p) := by
  unfold ParamsValid; infer_instance

/-- Span from PISpanDetector.h: half-open interval [start, stop).  The
source field `end` is a Lean keyword and is rendered `stop`. -/
structure Span where
  start : ℕ
  stop : ℕ
deriving DecidableEq, Repr

/-- Membership of a line position in a span. -/
def Span.mem (sp : Span) (i : ℕ) : Prop := sp.start ≤ i ∧ i < sp.stop

instance (sp : Span) (i : ℕ) : Decidable (sp.mem i) := by
  unfold Span.mem; infer_instance

/-- A position is covered by a span list when some listed span contains it. -/
def covered (spans : List Span) (i : ℕ) : Prop := ∃ sp ∈ spans, sp.mem i

/-- RNG state: the deterministic engine output stream plus the number of
values already consumed (model of a seeded std::mt19937). -/
structure Rng where
  stream : ℕ → ℕ
  pos : ℕ

/-- One engine output. -/
def rngNext (r : Rng) : ℕ × Rng := (r.stream r.pos, ⟨r.stream, r.pos + 1⟩)

/-- Model of one draw of std::uniform_int_distribution(lo, hi): consumes one
engine value and maps it into [lo, hi]. -/
def drawInt (lo hi : ℤ) (r : Rng) : ℤ × Rng :=
  let v := rngNext r
  (lo + (v.1 : ℤ) % (hi - lo + 1), v.2)

theorem drawInt_fst_lower {lo hi : ℤ} (h : lo ≤ hi) (r : Rng) :
    lo ≤ (drawInt lo hi r).1 := by
  have h0 : (0:ℤ) ≤ ((rngNext r).1 : ℤ) % (hi - lo + 1) :=
    Int.emod_nonneg _ (by omega)
  simp only [drawInt]
  omega

theorem drawInt_fst_upper {lo hi : ℤ} (h : lo ≤ hi) (r : Rng) :
    (drawInt lo hi r).1 ≤ hi := by
  have h1 : ((rngNext r).1 : ℤ) % (hi - lo + 1) < hi - lo + 1 :=
    Int.emod_lt_of_pos _ (by omega)
  simp only [drawInt]
  omega

/-- Truncation toward zero of a rational (C float-to-int conversion). -/
def ratTrunc (q : ℚ) : ℤ := if 0 ≤ q then ⌊q⌋ else -⌊-q⌋

/-- fmodf: x - y * trunc(x / y). -/
def ratFmod (x y : ℚ) : ℚ := x - y * ratTrunc (x / y)

/-- GetBrightness from PIPixelSort.h: 0.299 r + 0.587 g + 0.114 b.  The float
coefficients are modelled at their exact decimal values. -/
def GetBrightness (r g b : ℕ) : ℚ := (299 * r + 587 * g + 114 * b : ℚ) / 1000

/-- GetIntensity from PIPixelSort.h. -/
def GetIntensity (r g b : ℕ) : ℚ := ((r : ℚ) + g + b) / 3

/-- GetMinimum from PIPixelSort.h. -/
def GetMinimum (r g b : ℕ) : ℚ := (min r (min g b) : ℕ)

/-- GetHue from PIPixelSort.h: HSV hue in degrees, 0 for achromatic pixels. -/
def GetHue (rv gv bv : ℕ) : ℚ :=
  let r : ℚ := rv
  let g : ℚ := gv
  let b : ℚ := bv
  let maxC := max r (max g b)
  let minC := min r (min g b)
  let delta := maxC - minC
  if delta ≤ 0 then 0
  else
    let hue :=
      if maxC = r then 60 * ratFmod ((g - b) / delta) 6
      else if maxC = g then 60 * (((b - r) / delta) + 2)
      else 60 * (((r - g) / delta) + 4)
    if hue < 0 then hue + 360 else hue

/-- GetSaturation from PIPixelSort.h. -/
def GetSaturation (rv gv bv : ℕ) : ℚ :=
  let r : ℚ := rv
  let g : ℚ := gv
  let b : ℚ := bv
  let maxC := max r (max g b)
  if maxC ≤ 0 then 0 else (maxC - min r (min g b)) / maxC

/-- GetSortValue from PIPixelSort.h. -/
def GetSortValue (r g b : ℕ) (key : SortKey) : ℚ :=
  match key with
  | .brightness => GetBrightness r g b
  | .hue => GetHue r g b
  | .saturation => GetSaturation r g b
  | .intensity => GetIntensity r g b
  | .minimum => GetMinimum r g b
  | .red => (r : ℚ)
  | .green => (g : ℚ)
  | .blue => (b : ℚ)

/-- GetBrightnessNorm from PIPixelSort.h. -/
def GetBrightnessNorm (r g b : ℕ) : ℚ := GetBrightness r g b / 255

/-- GetSortValueNorm from PIPixelSort.h. -/
def GetSortValueNorm (r g b : ℕ) (key : SortKey) : ℚ :=
  match key with
  | .brightness => GetBrightness r g b / 255
  | .hue => GetHue r g b / 360
  | .saturation => GetSaturation r g b
  | .intensity => GetIntensity r g b / 255
  | .minimum => GetMinimum r g b / 255
  | .red => (r : ℚ) / 255
  | .green => (g : ℚ) / 255
  | .blue => (b : ℚ) / 255

/-- The in-range test of DetectSpansThreshold at position i, including the
`i < n` guard of the scan loop (positions at or past the line end count as
out of range, which closes a trailing span at line length). -/
def inRangeAt (vals : List ℚ) (lower upper : ℚ) (i : ℕ) : Bool :=
  decide (i < vals.length) &&
    (decide (lower ≤ vals.getD i 0) && decide (vals.getD i 0 ≤ upper))

/-- The scan loop of DetectSpansThreshold: k iterations remain, the cursor is
at i, and `op` holds the start of the currently open run (spanStart ≥ 0 in the
source).  A run closes when the test turns false; the caller runs n+1
iterations so that the test at i = n (false by the guard) closes a trailing
run at the line length. -/
def thAux (inR : ℕ → Bool) : ℕ → ℕ → Option ℕ → List Span
  | 0, _, _ => []
  | k + 1, i, Option.none =>
      if inR i then thAux inR k (i + 1) (some i) else thAux inR k (i + 1) Option.none
  | k + 1, i, some s =>
      if inR i then thAux inR k (i + 1) (some s)
      else ⟨s, i⟩ :: thAux inR k (i + 1) Option.none

/-- DetectSpansThreshold from PISpanDetector.h, factored over the list of
already-computed normalized sort values of the line. -/
def DetectSpansThreshold (vals : List ℚ) (lower upper : ℚ) : List Span :=
  thAux (inRangeAt vals lower upper) (vals.length + 1) 0 Option.none

/-- DetectSpansNone from PISpanDetector.h. -/
def DetectSpansNone (n : ℕ) : List Span :=
  if n = 0 then [] else [⟨0, n⟩]

/-- The span_max splitting loop of DetectSpans: emits chunks of at most m
positions.  The counter `fuel` is e - s at entry; since every iteration
advances the cursor by at least one position (the source only runs this loop
with span_max ≥ 1), e - s iterations always complete the loop. -/
def chunkAux (m : ℕ) : ℕ → ℕ → ℕ → List Span
  | 0, _, _ => []
  | fuel + 1, s, e =>
      if s < e then ⟨s, min (s + m) e⟩ :: chunkAux m fuel (min (s + m) e) e
      else []

/-- Splitting one span into chunks of at most m positions. -/
def chunkSpan (m : ℕ) (sp : Span) : List Span :=
  chunkAux m (sp.stop - sp.start) sp.start sp.stop

/-- The span_min stage of the post-filter of DetectSpans (lines 290-299):
it runs only when spanMin > 1. -/
def spanMinFilter (spanMin : ℕ) (spans : List Span) : List Span :=
  if 1 < spanMin
  then spans.filter (fun sp => decide (spanMin ≤ sp.stop - sp.start))
  else spans

/-- The span_max stage of the post-filter of DetectSpans (lines 302-321):
it runs only when spanMax > 0. -/
def spanMaxSplit (spanMax : ℕ) (spans : List Span) : List Span :=
  if 0 < spanMax then spans.flatMap (chunkSpan spanMax) else spans

/-- The post-filter of DetectSpans (PISpanDetector.h, lines 289-321). -/
def postFilterSpans (spanMin spanMax : ℕ) (spans : List Span) : List Span :=
  spanMaxSplit spanMax (spanMinFilter spanMin spans)

/-- The loop of DetectSpansRandom: while i < n, draw a span length in
[10, maxLen], emit [i, min (i+len) n), draw a gap in [1, 20], advance past
it.  Both draws are at least 1, so the cursor strictly advances. -/
def randomAux (n maxLen : ℕ) (i : ℕ) (rng : Rng) : List Span × Rng :=
  if h : i < n then
    let d1 := drawInt 10 maxLen rng
    let e := min (i + d1.1.toNat) n
    let d2 := drawInt 1 20 d1.2
    let rest := randomAux n maxLen (e + d2.1.toNat) d2.2
    (⟨i, e⟩ :: rest.1, rest.2)
  else ([], rng)
termination_by n - i
decreasing_by
  have h1 : (1:ℤ) ≤ (drawInt 1 20 (drawInt 10 maxLen rng).2).1 :=
    drawInt_fst_lower (by norm_num) _
  omega

/-- DetectSpansRandom from PISpanDetector.h. -/
def DetectSpansRandom (n : ℕ) (rng : Rng) : List Span × Rng :=
  randomAux n (max 11 (n / 4)) 0 rng

/-- The split-point scan of DetectSpansEdges: iterates the edge positions
i = 0 .. nEdges-1 (k positions remain), keeping the start of the current
segment in prevPos; a split at edge i ends the segment at i+1; after the
loop a final segment [prevPos, n) is emitted when nonempty. -/
def edgesScanAux (split : ℕ → Bool) (n : ℕ) : ℕ → ℕ → ℕ → List Span
  | 0, prevPos, _ => if prevPos < n then [⟨prevPos, n⟩] else []
  | k + 1, prevPos, i =>
      if split i then
        (if prevPos < i + 1 then [⟨prevPos, i + 1⟩] else []) ++
          edgesScanAux split n k (i + 1) (i + 1)
      else edgesScanAux split n k prevPos (i + 1)

attribute [local instance] Classical.propDecidable

/-- DetectSpansEdges from PISpanDetector.h: split where the absolute
brightness difference of adjacent pixels exceeds mean + population standard
deviation of all such differences. -/
noncomputable def DetectSpansEdges (line : List Pixel) : List Span :=
  let n := line.length
  if n = 0 then []
  else if n = 1 then [⟨0, 1⟩]
  else
    let bright : ℕ → ℚ := fun i =>
      GetBrightnessNorm (line.getD i pixZero).r (line.getD i pixZero).g
        (line.getD i pixZero).b
    let nE := n - 1
    let edge : ℕ → ℚ := fun i => |bright (i + 1) - bright i|
    let mean : ℚ := (∑ i ∈ Finset.range nE, edge i) / nE
    let meanSq : ℚ := (∑ i ∈ Finset.range nE, edge i * edge i) / nE
    let variance : ℚ := max 0 (meanSq - mean * mean)
    let threshold : ℝ := (mean : ℝ) + Real.sqrt (variance : ℝ)
    edgesScanAux (fun i => decide (((edge i : ℚ) : ℝ) > threshold)) n nE 0 0

/-- The span length computed by one iteration of DetectSpansWaves:
static_cast<int> truncates the nonnegative value, i.e. takes its floor. -/
noncomputable def wavesSpanLen (waveLen : ℕ) (phase : ℝ) : ℕ :=
  max 2 (⌊(waveLen : ℝ) * (0.5 + 0.5 * Real.sin phase)⌋).toNat

/-- The loop of DetectSpansWaves: emits consecutive spans, the phase
advancing by 0.5 per span. -/
noncomputable def wavesAux (n waveLen : ℕ) (i : ℕ) (phase : ℝ) : List Span :=
  if h : i < n then
    let e := min (i + wavesSpanLen waveLen phase) n
    ⟨i, e⟩ :: wavesAux n waveLen e (phase + 0.5)
  else []
termination_by n - i
decreasing_by
  have h2 : 2 ≤ wavesSpanLen waveLen phase := le_max_left _ _
  omega

/-- DetectSpansWaves from PISpanDetector.h. -/
noncomputable def DetectSpansWaves (n : ℕ) (rowIndex : ℕ) : List Span :=
  if n = 0 then [] else wavesAux n (max 10 (n / 8)) 0 ((rowIndex : ℝ) * 0.1)

/-- The strategy-dispatch part of DetectSpans (before the post-filter).
Only Random draws from the RNG. -/
noncomputable def DetectSpansPre (line : List Pixel) (p : PixelSortParams)
    (rowIndex : ℕ) (rng : Rng) : List Span × Rng :=
  match p.intervalMode with
  | .threshold =>
      (DetectSpansThreshold
        (line.map (fun px => GetSortValueNorm px.r px.g px.b p.sortKey))
        ((p.lowerThreshold : ℚ) / 255) ((p.upperThreshold : ℚ) / 255), rng)
  | .random => DetectSpansRandom line.length rng
  | .edges => (DetectSpansEdges line, rng)
  | .waves => (DetectSpansWaves line.length rowIndex, rng)
  | .none => (DetectSpansNone line.length, rng)

/-- DetectSpans from PISpanDetector.h: strategy dispatch then post-filter. -/
noncomputable def DetectSpans (line : List Pixel) (p : PixelSortParams)
    (rowIndex : ℕ) (rng : Rng) : List Span × Rng :=
  let pre := DetectSpansPre line p rowIndex rng
  (postFilterSpans p.spanMin p.spanMax pre.1, pre.2)

/-- PixelData from PIPixelSort.h: one pixel together with its sort value. -/
structure PixelData where
  r : ℕ
  g : ℕ
  b : ℕ
  sortValue : ℚ
deriving DecidableEq, Repr

/-- Build the PixelData of position idx of a line (SortLine, lines 196-199). -/
def mkPixelData (line : List Pixel) (idx : ℕ) (key : SortKey) : PixelData :=
  let px := line.getD idx pixZero
  ⟨px.r, px.g, px.b, GetSortValue px.r px.g px.b key⟩

/-- The contract of std::sort with the comparator on sortValue: the result is
a permutation of the input that is sorted by sortValue.  Tie order is
unspecified by the C++ standard, so SortLine is parameterised by any sortFn
satisfying this. -/
def SortSpec (sortFn : List PixelData → List PixelData) : Prop :=
  ∀ l : List PixelData,
    (sortFn l).Perm l ∧
      (sortFn l).Sorted (fun a b => a.sortValue ≤ b.sortValue)

/-- The comparator of SortLine, as a Bool relation. -/
def pdLe (a b : PixelData) : Bool := decide (a.sortValue ≤ b.sortValue)

/-- One conforming std::sort instance (a stable merge sort), used to
instantiate theorems about SortLine at concrete inputs. -/
def refSort (l : List PixelData) : List PixelData := l.mergeSort pdLe

theorem pdLe_trans (a b c : PixelData) :
    pdLe a b = true → pdLe b c = true → pdLe a c = true := by
  simp only [pdLe, decide_eq_true_eq]
  exact le_trans

theorem pdLe_total (a b : PixelData) : (pdLe a b || pdLe b a) = true := by
  simp only [pdLe, Bool.or_eq_true, decide_eq_true_eq]
  exact le_total _ _

theorem sortSpec_refSort : SortSpec refSort := by
  intro l
  refine ⟨List.mergeSort_perm l pdLe, ?_⟩
  have h := List.sorted_mergeSort pdLe_trans pdLe_total l
  refine List.Pairwise.imp ?_ h
  intro a b hab
  simpa [pdLe] using hab

/-- Another conforming std::sort instance, which reverses the input before a
stable merge sort, hence reverses the relative order of tied elements. -/
def revSort (l : List PixelData) : List PixelData := l.reverse.mergeSort pdLe

theorem sortSpec_revSort : SortSpec revSort := by
  intro l
  refine ⟨(List.mergeSort_perm l.reverse pdLe).trans (List.reverse_perm l), ?_⟩
  have h := List.sorted_mergeSort pdLe_trans pdLe_total l.reverse
  refine List.Pairwise.imp ?_ h
  intro a b hab
  simpa [pdLe] using hab

/-- The positions (span-local) collected by SortLine's gather loop
(lines 184-201): stop at the first position past the line end, and when a
selection row exists skip positions whose mask value is zero. -/
def spanInc (sel : Option (List ℕ)) (n start spanLen : ℕ) : List ℕ :=
  ((List.range spanLen).takeWhile (fun i => decide (start + i < n))).filter
    (fun i =>
      match sel with
      | Option.none => true
      | some m => decide (m.getD (start + i) 0 ≠ 0))

/-- The sort-then-optional-reverse stage of SortLine (lines 206-216). -/
def spanSortedSeq (sortFn : List PixelData → List PixelData)
    (p : PixelSortParams) (pixels : List PixelData) : List PixelData :=
  if p.reverse then (sortFn pixels).reverse else sortFn pixels

/-- Exchange the elements at positions i and j (std::swap on the vector). -/
def listSwap (l : List PixelData) (i j : ℕ) : List PixelData :=
  match l.get? i, l.get? j with
  | some a, some b => (l.set i b).set j a
  | _, _ => l

/-- The jitter pass of SortLine (lines 219-228): one left-to-right sweep; at
each position i an offset in [-jitter, jitter] is drawn and the elements at i
and clamp(i + offset) are swapped. -/
def applyJitter (jitter count : ℕ) (l : List PixelData) (rng : Rng) :
    List PixelData × Rng :=
  (List.range count).foldl
    (fun st (i : ℕ) =>
      let d := drawInt (-(jitter : ℤ)) (jitter : ℤ) st.2
      let j := (max 0 (min ((count : ℤ) - 1) ((i : ℤ) + d.1))).toNat
      (listSwap st.1 i j, d.2))
    (l, rng)

/-- The post-sort pixel sequence actually written back: the sorted (and
possibly reversed) pixels, with the jitter pass applied when jitter > 0. -/
def spanWrittenSeq (sortFn : List PixelData → List PixelData)
    (p : PixelSortParams) (pixels : List PixelData) (rng : Rng) :
    List PixelData × Rng :=
  let rev := spanSortedSeq sortFn p pixels
  if 0 < p.jitter ∧ 1 < pixels.length then applyJitter p.jitter pixels.length rev rng
  else (rev, rng)

/-- One channel of the partial-selection blend of SortLine (lines 248-250):
((sorted - orig) * alpha / 255) + orig in C int arithmetic (division
truncating toward zero), then cast back to BYTE (mod 256). -/
def blendChan (sc oc alpha : ℕ) : ℕ :=
  (((((sc : ℤ) - (oc : ℤ)) * (alpha : ℤ)).tdiv 255 + (oc : ℤ)) % 256).toNat

/-- Blend a sorted pixel over the original pixel with mask value alpha. -/
def blendPixel (pd : PixelData) (orig : Pixel) (alpha : ℕ) : Pixel :=
  ⟨blendChan pd.r orig.r alpha, blendChan pd.g orig.g alpha,
    blendChan pd.b orig.b alpha⟩

/-- One write of SortLine's write-back loop (lines 230-262) at span-local
position i: without a selection the pixel is written directly; with a
selection, mask 255 writes directly, masks in (0,255) blend against the
current buffer content, and the loop writes nothing otherwise. -/
def writeOne (sel : Option (List ℕ)) (start : ℕ) (line : List Pixel)
    (i : ℕ) (pd : PixelData) : List Pixel :=
  let idx := start + i
  match sel with
  | Option.none => line.set idx ⟨pd.r, pd.g, pd.b⟩
  | some m =>
      let s := m.getD idx 0
      if s = 255 then line.set idx ⟨pd.r, pd.g, pd.b⟩
      else if 0 < s then line.set idx (blendPixel pd (line.getD idx pixZero) s)
      else line

/-- The full write-back loop of SortLine: the k-th pixel of the written
sequence goes to the k-th collected span-local position. -/
def writeBack (sel : Option (List ℕ)) (start : ℕ)
    (pairs : List (ℕ × PixelData)) (line : List Pixel) : List Pixel :=
  pairs.foldl (fun ln q => writeOne sel start ln q.1 q.2) line

/-- The gather-sort-write part of SortLine's span loop (lines 180-262),
reached after the length and falloff gates: collect the qualifying pixels,
skip when fewer than 2 qualify, otherwise sort, reverse, jitter and write
back. -/
def processSpanCore (sortFn : List PixelData → List PixelData)
    (p : PixelSortParams) (sel : Option (List ℕ)) (line : List Pixel)
    (sp : Span) (rng : Rng) : List Pixel × Rng :=
  let inc := spanInc sel line.length sp.start (sp.stop - sp.start)
  let pixels := inc.map (fun i => mkPixelData line (sp.start + i) p.sortKey)
  if pixels.length < 2 then (line, rng)
  else
    let w := spanWrittenSeq sortFn p pixels rng
    (writeBack sel sp.start (inc.zip w.1) line, w.2)

/-- Processing of one span by SortLine (the body of the loop over spans,
lines 166-263): skip spans shorter than 2; with falloff > 0 draw in [0,99]
and skip the span when the draw is below falloff; then gather, sort and
write back via processSpanCore. -/
def processSpan (sortFn : List PixelData → List PixelData)
    (p : PixelSortParams) (sel : Option (List ℕ)) (line : List Pixel)
    (sp : Span) (rng : Rng) : List Pixel × Rng :=
  if sp.stop - sp.start < 2 then (line, rng)
  else if 0 < p.falloff then
    let d := drawInt 0 99 rng
    if d.1 < (p.falloff : ℤ) then (line, d.2)
    else processSpanCore sortFn p sel line sp d.2
  else processSpanCore sortFn p sel line sp rng

/-- SortLine from PIPixelSortMain.cpp: detect spans, then process each span
in order, threading the RNG. -/
noncomputable def SortLine (sortFn : List PixelData → List PixelData)
    (line : List Pixel) (p : PixelSortParams) (sel : Option (List ℕ))
    (rowIndex : ℕ) (rng : Rng) : List Pixel × Rng :=
  if line.length = 0 then (line, rng)
  else
    let det := DetectSpans line p rowIndex rng
    det.1.foldl (fun st sp => processSpan sortFn p sel st.1 sp st.2)
      (line, det.2)

/-- Pixel of a row-major image at column x, row y. -/
def getPix (img : List (List Pixel)) (x y : ℕ) : Pixel :=
  (img.getD y []).getD x pixZero

/-- Truncation toward zero of a real (C double-to-int conversion). -/
noncomputable def truncR (x : ℝ) : ℤ := if 0 ≤ x then ⌊x⌋ else -⌊-x⌋

/-- Center coordinate (w-1)/2 used by the rotation code. -/
noncomputable def centerOf (w : ℕ) : ℝ := ((w : ℝ) - 1) / 2

/-- Validity of an integer source coordinate against a w x h canvas. -/
def inCanvas (w h : ℕ) (xy : ℤ × ℤ) : Prop :=
  0 ≤ xy.1 ∧ xy.1 < (w : ℤ) ∧ 0 ≤ xy.2 ∧ xy.2 < (h : ℤ)

instance (w h : ℕ) (xy : ℤ × ℤ) : Decidable (inCanvas w h xy) := by
  unfold inCanvas; infer_instance

/-- Source coordinate computed by the forward rotation (PIPixelSortMain.cpp
lines 774-776) for destination pixel (rx, ry) of the rotated canvas. -/
noncomputable def rotSrc (c s : ℝ) (fullW fullH sortW sortH : ℕ)
    (rx ry : ℕ) : ℤ × ℤ :=
  let dx : ℝ := (rx : ℝ) - centerOf sortW
  let dy : ℝ := (ry : ℝ) - centerOf sortH
  (truncR (dx * c - dy * s + centerOf fullW + 0.5),
    truncR (dx * s + dy * c + centerOf fullH + 0.5))

/-- The rotation step (lines 766-788): the rotated canvas starts zero-filled
and each destination pixel with a valid source mapping samples the source
image (each destination cell is visited exactly once, so the fill followed by
the loop is the per-pixel conditional). -/
noncomputable def rotateStep (c s : ℝ) (fullW fullH sortW sortH : ℕ)
    (img : List (List Pixel)) : List (List Pixel) :=
  (List.range sortH).map (fun ry =>
    (List.range sortW).map (fun rx =>
      let src := rotSrc c s fullW fullH sortW sortH rx ry
      if inCanvas fullW fullH src then getPix img src.1.toNat src.2.toNat
      else pixZero))

/-- Source coordinate computed by the unrotate step (lines 852-854) for
destination pixel (fx, fy) of the original-size buffer. -/
noncomputable def unrotSrc (c s : ℝ) (fullW fullH sortW sortH : ℕ)
    (fx fy : ℕ) : ℤ × ℤ :=
  let dx : ℝ := (fx : ℝ) - centerOf fullW
  let dy : ℝ := (fy : ℝ) - centerOf fullH
  (truncR (dx * c + dy * s + centerOf sortW + 0.5),
    truncR (-dx * s + dy * c + centerOf sortH + 0.5))

/-- The unrotate step (lines 845-865): the destination buffer is first
zero-filled (std::fill at line 847), then every destination pixel with a
valid source mapping into the rotated canvas samples it; each destination
cell is visited exactly once, so the fill followed by the loop is the
per-pixel conditional.  The previous buffer content `pre` is erased by the
fill and does not influence the result. -/
noncomputable def unrotateStep (c s : ℝ) (fullW fullH sortW sortH : ℕ)
    (rot pre : List (List Pixel)) : List (List Pixel) :=
  (List.range fullH).map (fun fy =>
    (List.range fullW).map (fun fx =>
      let src := unrotSrc c s fullW fullH sortW sortH fx fy
      if inCanvas sortW sortH src then getPix rot src.1.toNat src.2.toNat
      else pixZero))

/-- The deferred selection blend of angle mode (lines 868-889), per pixel:
mask 0 restores the original pixel, masks in (0,255) blend the current pixel
over the original with the same truncating int formula as SortLine, mask 255
keeps the current pixel. -/
def blendGlobal (mask : List (List ℕ)) (orig cur : List (List Pixel))
    (fullW fullH : ℕ) : List (List Pixel) :=
  (List.range fullH).map (fun fy =>
    (List.range fullW).map (fun fx =>
      let s := (mask.getD fy []).getD fx 0
      let o := getPix orig fx fy
      let c := getPix cur fx fy
      if s = 0 then o
      else if s < 255 then
        ⟨blendChan c.r o.r s, blendChan c.g o.g s, blendChan c.b o.b s⟩
      else c))

/-- Sort every row of the buffer in index order, threading one shared RNG
stream (the horizontal branch of FilterRun, lines 795-818). -/
noncomputable def sortAllRows (sortFn : List PixelData → List PixelData)
    (p : PixelSortParams) (sel : ℕ → Option (List ℕ))
    (rows : List (List Pixel)) (rng : Rng) : List (List Pixel) × Rng :=
  (List.range rows.length).foldl
    (fun st y =>
      let r := SortLine sortFn (st.1.getD y []) p (sel y) y st.2
      (st.1.set y r.1, r.2))
    (rows, rng)

/-- Column x of a row-major buffer of height h. -/
def columnOf (buf : List (List Pixel)) (h x : ℕ) : List Pixel :=
  (List.range h).map (fun y => getPix buf x y)

/-- Rebuild a w x h row-major buffer from its list of columns. -/
def rowsFromCols (cols : List (List Pixel)) (w h : ℕ) : List (List Pixel) :=
  (List.range h).map (fun y => (List.range w).map (fun x => (cols.getD x []).getD y pixZero))

/-- Sort every column of the buffer in index order, threading the RNG (the
vertical branch of FilterRun, lines 819-842). -/
noncomputable def sortAllCols (sortFn : List PixelData → List PixelData)
    (p : PixelSortParams) (sel : ℕ → Option (List ℕ)) (w h : ℕ)
    (buf : List (List Pixel)) (rng : Rng) : List (List Pixel) × Rng :=
  let start : List (List Pixel) × Rng := ((List.range w).map (columnOf buf h), rng)
  let r := (List.range w).foldl
    (fun st x =>
      let r := SortLine sortFn (st.1.getD x []) p (sel x) x st.2
      (st.1.set x r.1, r.2))
    start
  (rowsFromCols r.1 w h, r.2)

/-- Column x of the selection mask (selCol with stride fullW, line 835). -/
def maskColumn (mask : List (List ℕ)) (h x : ℕ) : List ℕ :=
  (List.range h).map (fun y => (mask.getD y []).getD x 0)

/-- The full-image processing of one FilterRun pass (PIPixelSortMain.cpp
lines 688-921) on the gathered image: optional rotation, sorting of all rows
or all columns against one RNG stream, optional unrotation and deferred
selection blend.  Block gather/scatter, host progress and the property
protocol are outside the core.  The caller supplies the freshly seeded RNG
(rng.seed(42) at line 676); the pass itself is a pure function of the seed
stream, the parameters, the image and the mask. -/
noncomputable def fullPass (sortFn : List PixelData → List PixelData)
    (p : PixelSortParams) (img : List (List Pixel))
    (mask : Option (List (List ℕ))) (rng : Rng) : List (List Pixel) :=
  let fullW := (img.headD []).length
  let fullH := img.length
  if fullW = 0 ∨ fullH = 0 then img
  else
    let useAngle := p.angle ≠ 0 ∧ p.direction = SortDirection.horizontal
    let rad : ℝ := (p.angle : ℝ) * Real.pi / 180
    let cosA : ℝ := if useAngle then Real.cos rad else 1
    let sinA : ℝ := if useAngle then Real.sin rad else 0
    let sortW := if useAngle
      then max 1 (⌈|(fullW : ℝ) * cosA| + |(fullH : ℝ) * sinA|⌉.toNat)
      else fullW
    let sortH := if useAngle
      then max 1 (⌈|(fullW : ℝ) * sinA| + |(fullH : ℝ) * cosA|⌉.toNat)
      else fullH
    let sortBuf := if useAngle
      then rotateStep cosA sinA fullW fullH sortW sortH img
      else img
    let sorted :=
      match p.direction with
      | .horizontal =>
          sortAllRows sortFn p
            (fun y =>
              if useAngle then Option.none
              else mask.map (fun (mk : List (List ℕ)) => mk.getD y []))
            sortBuf rng
      | .vertical =>
          sortAllCols sortFn p
            (fun x => mask.map (fun mk => maskColumn mk fullH x))
            sortW sortH sortBuf rng
    let unrot := if useAngle
      then unrotateStep cosA sinA fullW fullH sortW sortH sorted.1 img
      else sorted.1
    match mask with
    | some mk => if useAngle then blendGlobal mk img unrot fullW fullH else unrot
    | Option.none => unrot

theorem covered_nil (j : ℕ) : ¬ covered [] j := by
  rintro ⟨sp, h, -⟩
  exact absurd h (List.not_mem_nil sp)

theorem covered_cons {a : Span} {l : List Span} {j : ℕ} :
    covered (a :: l) j ↔ a.mem j ∨ covered l j := by
  constructor
  · rintro ⟨sp, hsp, hm⟩
    rcases List.mem_cons.1 hsp with h | h
    · exact Or.inl (h ▸ hm)
    · exact Or.inr ⟨sp, h, hm⟩
  · rintro (h | ⟨sp, hsp, hm⟩)
    · exact ⟨a, List.mem_cons_self a l, h⟩
    · exact ⟨sp, List.mem_cons_of_mem a hsp, hm⟩

theorem thAux_mem (inR : ℕ → Bool) :
    ∀ k i (op : Option ℕ), (∀ s, op = some s → s < i) →
      ∀ sp ∈ thAux inR k i op,
        op.getD i ≤ sp.start ∧ sp.start < sp.stop ∧ sp.stop < i + k := by
  intro k
  induction k with
  | zero => intro i op _ sp hsp; simp [thAux] at hsp
  | succ k ih =>
    intro i op hop sp hsp
    match op with
    | Option.none =>
      rw [thAux] at hsp
      split at hsp
      · have h := ih (i + 1) (some i) (by intro s hs; cases hs; omega) sp hsp
        simp only [Option.getD] at h ⊢
        omega
      · have h := ih (i + 1) Option.none (by intro s hs; cases hs) sp hsp
        simp only [Option.getD] at h ⊢
        omega
    | some s =>
      have hsi : s < i := hop s rfl
      rw [thAux] at hsp
      split at hsp
      · have h := ih (i + 1) (some s) (by intro t ht; cases ht; omega) sp hsp
        simp only [Option.getD] at h ⊢
        omega
      · rcases List.mem_cons.1 hsp with h | h
        · subst h
          show s ≤ s ∧ s < i ∧ i < i + (k + 1)
          omega
        · have h2 := ih (i + 1) Option.none (by intro t ht; cases ht) sp h
          simp only [Option.getD] at h2 ⊢
          omega

theorem thAux_pairwise (inR : ℕ → Bool) :
    ∀ k i (op : Option ℕ), (∀ s, op = some s → s < i) →
      (thAux inR k i op).Pairwise (fun a b => a.stop ≤ b.start) := by
  intro k
  induction k with
  | zero => intro i op _; simp [thAux]
  | succ k ih =>
    intro i op hop
    match op with
    | Option.none =>
      rw [thAux]
      split
      · exact ih (i + 1) (some i) (by intro s hs; cases hs; omega)
      · exact ih (i + 1) Option.none (by intro s hs; cases hs)
    | some s =>
      have hsi : s < i := hop s rfl
      rw [thAux]
      split
      · exact ih (i + 1) (some s) (by intro t ht; cases ht; omega)
      · refine List.pairwise_cons.2 ⟨?_, ih (i + 1) Option.none (by intro t ht; cases ht)⟩
        intro sp hsp
        have h := thAux_mem inR k (i + 1) Option.none (by intro t ht; cases ht) sp hsp
        simp only [Option.getD] at h
        show i ≤ sp.start
        omega

theorem thAux_cov (inR : ℕ → Bool) :
    ∀ k i (op : Option ℕ) (j : ℕ),
      (∀ s, op = some s → s < i ∧ ∀ t, s ≤ t → t < i → inR t = true) →
      (∀ t, i + k ≤ t + 1 → inR t = false) →
      (covered (thAux inR k i op) j ↔
        (match op with
         | some s => s ≤ j ∧ (j < i ∨ inR j = true)
         | Option.none => i ≤ j ∧ inR j = true)) := by
  intro k
  induction k with
  | zero =>
    intro i op j hop hstop
    match op with
    | Option.none =>
      simp only [thAux]
      constructor
      · intro h; exact absurd h (covered_nil j)
      · rintro ⟨hij, hj⟩
        have := hstop j (by omega)
        simp [this] at hj
    | some s =>
      have h1 := (hop s rfl).1
      have h2 := (hop s rfl).2 (i - 1) (by omega) (by omega)
      have h3 := hstop (i - 1) (by omega)
      rw [h3] at h2
      cases h2
  | succ k ih =>
    intro i op j hop hstop
    have hstop2 : ∀ t, (i + 1) + k ≤ t + 1 → inR t = false := by
      intro t ht; exact hstop t (by omega)
    match op with
    | Option.none =>
      rw [thAux]
      split
      · rename_i hi
        rw [ih (i + 1) (some i) j
            (by
              intro s hs; cases hs
              refine ⟨by omega, ?_⟩
              intro t h1 h2
              have ht : t = i := by omega
              rwa [ht])
            hstop2]
        constructor
        · rintro ⟨h1, h2 | h2⟩
          · have : j = i := by omega
            exact ⟨by omega, this ▸ hi⟩
          · exact ⟨h1, h2⟩
        · rintro ⟨h1, h2⟩; exact ⟨h1, Or.inr h2⟩
      · rename_i hi
        rw [ih (i + 1) Option.none j (by intro s hs; cases hs) hstop2]
        simp only [Bool.not_eq_true] at hi
        constructor
        · rintro ⟨h1, h2⟩; exact ⟨by omega, h2⟩
        · rintro ⟨h1, h2⟩
          refine ⟨?_, h2⟩
          rcases Nat.eq_or_lt_of_le h1 with h | h
          · rw [← h] at h2; rw [hi] at h2; cases h2
          · omega
    | some s =>
      have hsi : s < i := (hop s rfl).1
      have hrun : ∀ t, s ≤ t → t < i → inR t = true := (hop s rfl).2
      rw [thAux]
      split
      · rename_i hi
        rw [ih (i + 1) (some s) j
            (by
              intro t ht; cases ht
              refine ⟨by omega, ?_⟩
              intro u h1 h2
              rcases Nat.lt_or_ge u i with h | h
              · exact hrun u h1 h
              · have : u = i := by omega
                rw [this]; exact hi)
            hstop2]
        constructor
        · rintro ⟨h1, h2 | h2⟩
          · rcases Nat.lt_or_ge j i with h | h
            · exact ⟨h1, Or.inl h⟩
            · have : j = i := by omega
              exact ⟨h1, Or.inr (this ▸ hi)⟩
          · exact ⟨h1, Or.inr h2⟩
        · rintro ⟨h1, h2 | h2⟩
          · exact ⟨h1, Or.inl (by omega)⟩
          · exact ⟨h1, Or.inr h2⟩
      · rename_i hi
        simp only [Bool.not_eq_true] at hi
        rw [covered_cons,
          ih (i + 1) Option.none j (by intro t ht; cases ht) hstop2]
        constructor
        · rintro (h | ⟨h1, h2⟩)
          · rcases h with ⟨h1, h2⟩
            exact ⟨h1, Or.inl h2⟩
          · exact ⟨by omega, Or.inr h2⟩
        · rintro ⟨h1, h2 | h2⟩
          · exact Or.inl ⟨h1, h2⟩
          · rcases Nat.lt_or_ge j i with h | h
            · exact Or.inl ⟨h1, h⟩
            · rcases Nat.eq_or_lt_of_le h with h3 | h3
              · rw [← h3] at h2; rw [hi] at h2; cases h2
              · exact Or.inr ⟨by omega, h2⟩

theorem thAux_maxLeft (inR : ℕ → Bool) :
    ∀ k i (op : Option ℕ),
      (op = Option.none → (i = 0 ∨ inR (i - 1) = false)) →
      ∀ sp ∈ thAux inR k i op,
        sp.start = 0 ∨ inR (sp.start - 1) = false ∨ op = some sp.start := by
  intro k
  induction k with
  | zero => intro i op _ sp hsp; simp [thAux] at hsp
  | succ k ih =>
    intro i op hop sp hsp
    match op with
    | Option.none =>
      rw [thAux] at hsp
      split at hsp
      · have h := ih (i + 1) (some i) (by intro h; cases h) sp hsp
        rcases h with h | h | h
        · exact Or.inl h
        · exact Or.inr (Or.inl h)
        · have : sp.start = i := by injection h with h2; omega
          rcases hop rfl with h2 | h2
          · exact Or.inl (by omega)
          · exact Or.inr (Or.inl (by rw [this]; exact h2))
      · rename_i hi
        simp only [Bool.not_eq_true] at hi
        have h := ih (i + 1) Option.none (by intro _; right; simpa using hi) sp hsp
        rcases h with h | h | h
        · exact Or.inl h
        · exact Or.inr (Or.inl h)
        · cases h
    | some s =>
      rw [thAux] at hsp
      split at hsp
      · have h := ih (i + 1) (some s) (by intro h; cases h) sp hsp
        rcases h with h | h | h
        · exact Or.inl h
        · exact Or.inr (Or.inl h)
        · exact Or.inr (Or.inr h)
      · rename_i hi
        simp only [Bool.not_eq_true] at hi
        rcases List.mem_cons.1 hsp with h | h
        · subst h
          exact Or.inr (Or.inr rfl)
        · have h2 := ih (i + 1) Option.none (by intro _; right; simpa using hi) sp h
          rcases h2 with h2 | h2 | h2
          · exact Or.inl h2
          · exact Or.inr (Or.inl h2)
          · cases h2

theorem thAux_maxRight (inR : ℕ → Bool) :
    ∀ k i (op : Option ℕ), ∀ sp ∈ thAux inR k i op, inR sp.stop = false := by
  intro k
  induction k with
  | zero => intro i op sp hsp; simp [thAux] at hsp
  | succ k ih =>
    intro i op sp hsp
    match op with
    | Option.none =>
      rw [thAux] at hsp
      split at hsp
      · exact ih (i + 1) (some i) sp hsp
      · exact ih (i + 1) Option.none sp hsp
    | some s =>
      rw [thAux] at hsp
      split at hsp
      · exact ih (i + 1) (some s) sp hsp
      · rename_i hi
        simp only [Bool.not_eq_true] at hi
        rcases List.mem_cons.1 hsp with h | h
        · subst h; simpa using hi
        · exact ih (i + 1) Option.none sp h

theorem chunkAux_mem {m : ℕ} (hm : 1 ≤ m) :
    ∀ fuel s e, ∀ sp ∈ chunkAux m fuel s e,
      s ≤ sp.start ∧ sp.start < sp.stop ∧ sp.stop ≤ e ∧
        sp.stop - sp.start ≤ m := by
  intro fuel
  induction fuel with
  | zero => intro s e sp hsp; simp [chunkAux] at hsp
  | succ fuel ih =>
    intro s e sp hsp
    rw [chunkAux] at hsp
    split at hsp
    · rename_i hse
      rcases List.mem_cons.1 hsp with h | h
      · subst h
        show s ≤ s ∧ s < min (s + m) e ∧ min (s + m) e ≤ e ∧
          min (s + m) e - s ≤ m
        omega
      · have h2 := ih (min (s + m) e) e sp h
        omega
    · simp at hsp

theorem chunkAux_pairwise {m : ℕ} (hm : 1 ≤ m) :
    ∀ fuel s e, (chunkAux m fuel s e).Pairwise (fun a b => a.stop ≤ b.start) := by
  intro fuel
  induction fuel with
  | zero => intro s e; simp [chunkAux]
  | succ fuel ih =>
    intro s e
    rw [chunkAux]
    split
    · refine List.pairwise_cons.2 ⟨?_, ih (min (s + m) e) e⟩
      intro sp hsp
      have h := chunkAux_mem hm fuel (min (s + m) e) e sp hsp
      show min (s + m) e ≤ sp.start
      omega
    · simp

theorem chunkAux_cover {m : ℕ} (hm : 1 ≤ m) :
    ∀ fuel s e, e - s ≤ fuel →
      ∀ j, covered (chunkAux m fuel s e) j ↔ (s ≤ j ∧ j < e) := by
  intro fuel
  induction fuel with
  | zero =>
    intro s e hf j
    simp only [chunkAux]
    constructor
    · intro h; exact absurd h (covered_nil j)
    · intro h; omega
  | succ fuel ih =>
    intro s e hf j
    rw [chunkAux]
    split
    · rename_i hse
      rw [covered_cons, ih (min (s + m) e) e (by omega) j]
      unfold Span.mem
      show (s ≤ j ∧ j < min (s + m) e) ∨ (min (s + m) e ≤ j ∧ j < e) ↔ _
      omega
    · rename_i hse
      constructor
      · intro h; exact absurd h (covered_nil j)
      · intro h; omega

theorem chunkAux_sizes {m : ℕ} (hm : 1 ≤ m) :
    ∀ fuel s e, e - s ≤ fuel →
      ∀ sp ∈ chunkAux m fuel s e, sp.stop - sp.start = m ∨ sp.stop = e := by
  intro fuel
  induction fuel with
  | zero => intro s e _ sp hsp; simp [chunkAux] at hsp
  | succ fuel ih =>
    intro s e hf sp hsp
    rw [chunkAux] at hsp
    split at hsp
    · rcases List.mem_cons.1 hsp with h | h
      · subst h
        show min (s + m) e - s = m ∨ min (s + m) e = e
        omega
      · exact ih (min (s + m) e) e (by omega) sp h
    · simp at hsp

theorem chunkAux_chain {m : ℕ} (hm : 1 ≤ m) :
    ∀ fuel s e, (chunkAux m fuel s e).Chain' (fun a b => a.stop = b.start) := by
  intro fuel
  induction fuel with
  | zero => intro s e; simp [chunkAux]
  | succ fuel ih =>
    intro s e
    rw [chunkAux]
    split
    · rename_i hse
      refine List.chain'_cons'.2 ⟨?_, ih (min (s + m) e) e⟩
      intro sp hsp
      rcases Nat.lt_or_ge (min (s + m) e) e with h | h
      · cases fuel with
        | zero => simp [chunkAux] at hsp
        | succ fuel =>
          rw [chunkAux] at hsp
          rw [if_pos h] at hsp
          simp only [List.head?_cons, Option.mem_def, Option.some.injEq] at hsp
          subst hsp
          rfl
      · cases fuel with
        | zero => simp [chunkAux] at hsp
        | succ fuel =>
          rw [chunkAux] at hsp
          rw [if_neg (by omega)] at hsp
          simp at hsp
    · simp

theorem spanMinFilter_mem {spanMin : ℕ} {spans : List Span} {P : Span → Prop}
    (hwf : ∀ sp ∈ spans, P sp) :
    ∀ sp ∈ spanMinFilter spanMin spans, P sp := by
  unfold spanMinFilter
  split
  · intro sp hsp
    exact hwf sp (List.mem_of_mem_filter hsp)
  · exact hwf

theorem spanMaxSplit_mem {spanMax : ℕ} {spans : List Span} {n : ℕ}
    (hwf : ∀ sp ∈ spans, sp.start < sp.stop ∧ sp.stop ≤ n) :
    ∀ sp ∈ spanMaxSplit spanMax spans,
      sp.start < sp.stop ∧ sp.stop ≤ n := by
  unfold spanMaxSplit
  split
  · rename_i hmax
    intro sp hsp
    rcases List.mem_flatMap.1 hsp with ⟨src, hsrc, hsp2⟩
    have h1 := hwf src hsrc
    have h2 := chunkAux_mem (show 1 ≤ spanMax by omega) _ src.start src.stop sp hsp2
    omega
  · exact hwf

/-- Anything the post-filter returns is a well-formed span within bounds,
provided the detected spans were. -/
theorem postFilterSpans_mem {spanMin spanMax : ℕ} {spans : List Span} {n : ℕ}
    (hwf : ∀ sp ∈ spans, sp.start < sp.stop ∧ sp.stop ≤ n) :
    ∀ sp ∈ postFilterSpans spanMin spanMax spans,
      sp.start < sp.stop ∧ sp.stop ≤ n :=
  spanMaxSplit_mem (spanMinFilter_mem hwf)

theorem pairwise_flatMap_chunk {spanMax : ℕ} (hm : 1 ≤ spanMax) :
    ∀ spans : List Span,
      (∀ sp ∈ spans, sp.start < sp.stop) →
      spans.Pairwise (fun a b => a.stop ≤ b.start) →
      (spans.flatMap (chunkSpan spanMax)).Pairwise (fun a b => a.stop ≤ b.start) := by
  intro spans
  induction spans with
  | nil => intro _ _; simp
  | cons x xs ih =>
    intro hwf hp
    rcases List.pairwise_cons.1 hp with ⟨hx, hxs⟩
    rw [List.flatMap_cons]
    refine (List.pairwise_append).2 ⟨?_, ?_, ?_⟩
    · exact chunkAux_pairwise hm _ x.start x.stop
    · exact ih (fun sp h => hwf sp (List.mem_cons_of_mem x h)) hxs
    · intro a ha b hb
      rcases List.mem_flatMap.1 hb with ⟨src, hsrc, hb2⟩
      have h1 := chunkAux_mem hm _ x.start x.stop a ha
      have h2 := chunkAux_mem hm _ src.start src.stop b hb2
      have h3 := hx src hsrc
      omega

theorem spanMinFilter_pairwise {spanMin : ℕ} {spans : List Span}
    (hp : spans.Pairwise (fun a b => a.stop ≤ b.start)) :
    (spanMinFilter spanMin spans).Pairwise (fun a b => a.stop ≤ b.start) := by
  unfold spanMinFilter
  split
  · exact hp.filter _
  · exact hp

theorem spanMaxSplit_pairwise {spanMax : ℕ} {spans : List Span}
    (hwf : ∀ sp ∈ spans, sp.start < sp.stop)
    (hp : spans.Pairwise (fun a b => a.stop ≤ b.start)) :
    (spanMaxSplit spanMax spans).Pairwise (fun a b => a.stop ≤ b.start) := by
  unfold spanMaxSplit
  split
  · rename_i hmax
    exact pairwise_flatMap_chunk (by omega) _ hwf hp
  · exact hp

/-- Pairwise order is preserved by the post-filter. -/
theorem postFilterSpans_pairwise {spanMin spanMax : ℕ} {spans : List Span}
    (hwf : ∀ sp ∈ spans, sp.start < sp.stop)
    (hp : spans.Pairwise (fun a b => a.stop ≤ b.start)) :
    (postFilterSpans spanMin spanMax spans).Pairwise
      (fun a b => a.stop ≤ b.start) :=
  spanMaxSplit_pairwise (spanMinFilter_mem hwf) (spanMinFilter_pairwise hp)

theorem randomAux_mem {n maxLen : ℕ} (hml : 10 ≤ maxLen) :
    ∀ i rng, ∀ sp ∈ (randomAux n maxLen i rng).1,
      i ≤ sp.start ∧ sp.start < sp.stop ∧ sp.stop ≤ n := by
  have H : ∀ k i rng, n - i ≤ k → ∀ sp ∈ (randomAux n maxLen i rng).1,
      i ≤ sp.start ∧ sp.start < sp.stop ∧ sp.stop ≤ n := by
    intro k
    induction k with
    | zero =>
      intro i rng hk sp hsp
      rw [randomAux] at hsp
      rw [dif_neg (by omega)] at hsp
      simp at hsp
    | succ k ih =>
      intro i rng hk sp hsp
      rw [randomAux] at hsp
      by_cases hin : i < n
      · rw [dif_pos hin] at hsp
        have hlen : (10 : ℤ) ≤ (drawInt 10 maxLen rng).1 :=
          drawInt_fst_lower (by exact_mod_cast hml) rng
        have hgap : (1 : ℤ) ≤ (drawInt 1 20 (drawInt 10 maxLen rng).2).1 :=
          drawInt_fst_lower (by norm_num) _
        have hlen2 : 1 ≤ (drawInt 10 maxLen rng).1.toNat := by omega
        rcases List.mem_cons.1 hsp with h | h
        · subst h
          constructor
          · exact Nat.le_refl i
          · constructor
            · show i < min (i + (drawInt 10 maxLen rng).1.toNat) n
              omega
            · show min (i + (drawInt 10 maxLen rng).1.toNat) n ≤ n
              omega
        · have h2 := ih _ _ (by
            have : i + 1 ≤ min (i + (drawInt 10 maxLen rng).1.toNat) n +
                (drawInt 1 20 (drawInt 10 maxLen rng).2).1.toNat := by omega
            omega) sp h
          omega
      · rw [dif_neg hin] at hsp
        simp at hsp
  intro i rng
  exact H (n - i) i rng (Nat.le_refl _)

theorem randomAux_pairwise {n maxLen : ℕ} (hml : 10 ≤ maxLen) :
    ∀ i rng, (randomAux n maxLen i rng).1.Pairwise
      (fun a b => a.stop ≤ b.start) := by
  have H : ∀ k i rng, n - i ≤ k → (randomAux n maxLen i rng).1.Pairwise
      (fun a b => a.stop ≤ b.start) := by
    intro k
    induction k with
    | zero =>
      intro i rng hk
      rw [randomAux]
      rw [dif_neg (by omega)]
      simp
    | succ k ih =>
      intro i rng hk
      rw [randomAux]
      by_cases hin : i < n
      · rw [dif_pos hin]
        have hlen : (10 : ℤ) ≤ (drawInt 10 maxLen rng).1 :=
          drawInt_fst_lower (by exact_mod_cast hml) rng
        refine List.pairwise_cons.2 ⟨?_, ?_⟩
        · intro sp hsp
          have h2 := randomAux_mem hml _ _ sp hsp
          show min (i + (drawInt 10 maxLen rng).1.toNat) n ≤ sp.start
          omega
        · exact ih _ _ (by omega)
      · rw [dif_neg hin]
        simp
  intro i rng
  exact H (n - i) i rng (Nat.le_refl _)

theorem edgesScanAux_mem (split : ℕ → Bool) (n : ℕ) :
    ∀ k prevPos i, prevPos ≤ i → i + k + 1 ≤ n →
      ∀ sp ∈ edgesScanAux split n k prevPos i,
        prevPos ≤ sp.start ∧ sp.start < sp.stop ∧ sp.stop ≤ n := by
  intro k
  induction k with
  | zero =>
    intro prevPos i hpi hik sp hsp
    simp only [edgesScanAux] at hsp
    split at hsp
    · rename_i hpn
      rcases List.mem_singleton.1 hsp with h
      subst h
      show prevPos ≤ prevPos ∧ prevPos < n ∧ n ≤ n
      omega
    · simp at hsp
  | succ k ih =>
    intro prevPos i hpi hik sp hsp
    simp only [edgesScanAux] at hsp
    split at hsp
    · rcases List.mem_append.1 hsp with h | h
      · split at h
        · rename_i hpi1
          rcases List.mem_singleton.1 h with h2
          subst h2
          show prevPos ≤ prevPos ∧ prevPos < i + 1 ∧ i + 1 ≤ n
          omega
        · simp at h
      · have h2 := ih (i + 1) (i + 1) (Nat.le_refl _) (by omega) sp h
        omega
    · have h2 := ih prevPos (i + 1) (by omega) (by omega) sp hsp
      omega

theorem edgesScanAux_pairwise (split : ℕ → Bool) (n : ℕ) :
    ∀ k prevPos i, prevPos ≤ i → i + k + 1 ≤ n →
      (edgesScanAux split n k prevPos i).Pairwise
        (fun a b => a.stop ≤ b.start) := by
  intro k
  induction k with
  | zero =>
    intro prevPos i hpi hik
    simp only [edgesScanAux]
    split
    · simp
    · simp
  | succ k ih =>
    intro prevPos i hpi hik
    simp only [edgesScanAux]
    split
    · refine List.pairwise_append.2 ⟨?_, ?_, ?_⟩
      · split
        · simp
        · simp
      · exact ih (i + 1) (i + 1) (Nat.le_refl _) (by omega)
      · intro a ha b hb
        split at ha
        · rcases List.mem_singleton.1 ha with h
          subst h
          have h2 := edgesScanAux_mem split n k (i + 1) (i + 1)
            (Nat.le_refl _) (by omega) b hb
          show i + 1 ≤ b.start
          omega
        · simp at ha
    · exact ih prevPos (i + 1) (by omega) (by omega)

theorem wavesAux_mem (n waveLen : ℕ) :
    ∀ i phase, ∀ sp ∈ wavesAux n waveLen i phase,
      i ≤ sp.start ∧ sp.start < sp.stop ∧ sp.stop ≤ n := by
  have H : ∀ k i phase, n - i ≤ k → ∀ sp ∈ wavesAux n waveLen i phase,
      i ≤ sp.start ∧ sp.start < sp.stop ∧ sp.stop ≤ n := by
    intro k
    induction k with
    | zero =>
      intro i phase hk sp hsp
      rw [wavesAux] at hsp
      rw [dif_neg (by omega)] at hsp
      simp at hsp
    | succ k ih =>
      intro i phase hk sp hsp
      rw [wavesAux] at hsp
      by_cases hin : i < n
      · rw [dif_pos hin] at hsp
        have hlen : 2 ≤ wavesSpanLen waveLen phase := le_max_left _ _
        rcases List.mem_cons.1 hsp with h | h
        · subst h
          refine ⟨Nat.le_refl i, ?_, ?_⟩
          · show i < min (i + wavesSpanLen waveLen phase) n
            omega
          · show min (i + wavesSpanLen waveLen phase) n ≤ n
            omega
        · have h2 := ih _ _ (by omega) sp h
          omega
      · rw [dif_neg hin] at hsp
        simp at hsp
  intro i phase
  exact H (n - i) i phase (Nat.le_refl _)

theorem wavesAux_pairwise (n waveLen : ℕ) :
    ∀ i phase, (wavesAux n waveLen i phase).Pairwise
      (fun a b => a.stop ≤ b.start) := by
  have H : ∀ k i phase, n - i ≤ k → (wavesAux n waveLen i phase).Pairwise
      (fun a b => a.stop ≤ b.start) := by
    intro k
    induction k with
    | zero =>
      intro i phase hk
      rw [wavesAux]
      rw [dif_neg (by omega)]
      simp
    | succ k ih =>
      intro i phase hk
      rw [wavesAux]
      by_cases hin : i < n
      · rw [dif_pos hin]
        have hlen : 2 ≤ wavesSpanLen waveLen phase := le_max_left _ _
        refine List.pairwise_cons.2 ⟨?_, ?_⟩
        · intro sp hsp
          have h2 := wavesAux_mem n waveLen _ _ sp hsp
          show min (i + wavesSpanLen waveLen phase) n ≤ sp.start
          omega
        · exact ih _ _ (by omega)
      · rw [dif_neg hin]
        simp
  intro i phase
  exact H (n - i) i phase (Nat.le_refl _)

/-- Every strategy produces well-formed spans within the line bounds. -/
theorem detectSpansPre_mem (line : List Pixel) (p : PixelSortParams)
    (rowIndex : ℕ) (rng : Rng) :
    ∀ sp ∈ (DetectSpansPre line p rowIndex rng).1,
      sp.start < sp.stop ∧ sp.stop ≤ line.length := by
  unfold DetectSpansPre
  cases hmode : p.intervalMode with
  | threshold =>
    intro sp hsp
    simp only at hsp
    have h := thAux_mem _ _ 0 Option.none (by intro s hs; cases hs) sp hsp
    simp only [Option.getD, List.length_map] at h
    constructor
    · exact h.2.1
    · have := h.2.2
      simp only [List.length_map] at this ⊢
      omega
  | random =>
    intro sp hsp
    have h := randomAux_mem (show 10 ≤ max 11 (line.length / 4) by omega)
      0 rng sp hsp
    exact ⟨h.2.1, h.2.2⟩
  | edges =>
    intro sp hsp
    simp only at hsp
    simp only [DetectSpansEdges] at hsp
    split at hsp
    · simp at hsp
    · split at hsp
      · rename_i h0 h1
        rcases List.mem_singleton.1 hsp with h
        subst h
        show 0 < 1 ∧ 1 ≤ line.length
        omega
      · rename_i h0 h1
        have h := edgesScanAux_mem _ line.length (line.length - 1) 0 0
          (Nat.le_refl 0) (by omega) sp hsp
        exact ⟨h.2.1, h.2.2⟩
  | waves =>
    intro sp hsp
    simp only at hsp
    unfold DetectSpansWaves at hsp
    split at hsp
    · simp at hsp
    · have h := wavesAux_mem line.length _ 0 _ sp hsp
      exact ⟨h.2.1, h.2.2⟩
  | none =>
    intro sp hsp
    simp only at hsp
    unfold DetectSpansNone at hsp
    split at hsp
    · simp at hsp
    · rcases List.mem_singleton.1 hsp with h
      subst h
      rename_i h0
      show 0 < line.length ∧ line.length ≤ line.length
      omega

/-- Every strategy produces spans in ascending, pairwise disjoint order. -/
theorem detectSpansPre_pairwise (line : List Pixel) (p : PixelSortParams)
    (rowIndex : ℕ) (rng : Rng) :
    (DetectSpansPre line p rowIndex rng).1.Pairwise
      (fun a b => a.stop ≤ b.start) := by
  unfold DetectSpansPre
  cases hmode : p.intervalMode with
  | threshold =>
    simp only
    exact thAux_pairwise _ _ 0 Option.none (by intro s hs; cases hs)
  | random =>
    exact randomAux_pairwise (by omega) 0 rng
  | edges =>
    simp only
    simp only [DetectSpansEdges]
    split
    · simp
    · split
      · simp
      · rename_i h0 h1
        exact edgesScanAux_pairwise _ line.length (line.length - 1) 0 0
          (Nat.le_refl 0) (by omega)
  | waves =>
    simp only
    unfold DetectSpansWaves
    split
    · simp
    · exact wavesAux_pairwise line.length _ 0 _
  | none =>
    simp only
    unfold DetectSpansNone
    split
    · simp
    · simp

theorem detectSpans_mem (line : List Pixel) (p : PixelSortParams)
    (rowIndex : ℕ) (rng : Rng) :
    ∀ sp ∈ (DetectSpans line p rowIndex rng).1,
      sp.start < sp.stop ∧ sp.stop ≤ line.length :=
  postFilterSpans_mem (detectSpansPre_mem line p rowIndex rng)

theorem detectSpans_pairwise (line : List Pixel) (p : PixelSortParams)
    (rowIndex : ℕ) (rng : Rng) :
    (DetectSpans line p rowIndex rng).1.Pairwise
      (fun a b => a.stop ≤ b.start) :=
  postFilterSpans_pairwise
    (fun sp h => (detectSpansPre_mem line p rowIndex rng sp h).1)
    (detectSpansPre_pairwise line p rowIndex rng)

/-- C9: for every line, every Params, every line index and every RNG state,
each span returned by DetectSpans (after the spanMin/spanMax post-filter)
satisfies start < stop ≤ line length, and the list is in ascending span
order with pairwise disjoint spans (each span ends no later than the next
one starts, which with start < stop gives both disjointness and strictly
ascending starts). -/
theorem detectSpans_spans_wf (line : List Pixel) (p : PixelSortParams)
    (rowIndex : ℕ) (rng : Rng) :
    (∀ sp ∈ (DetectSpans line p rowIndex rng).1,
        sp.start < sp.stop ∧ sp.stop ≤ line.length) ∧
      (DetectSpans line p rowIndex rng).1.Pairwise
        (fun a b => a.stop ≤ b.start) :=
  ⟨detectSpans_mem line p rowIndex rng, detectSpans_pairwise line p rowIndex rng⟩

theorem inRangeAt_false_of_ge (vals : List ℚ) (lower upper : ℚ) :
    ∀ t, vals.length ≤ t → inRangeAt vals lower upper t = false := by
  intro t ht
  simp [inRangeAt, ht, Nat.not_lt.2 ht]

theorem detectSpansThreshold_mem (vals : List ℚ) (lower upper : ℚ) :
    ∀ sp ∈ DetectSpansThreshold vals lower upper,
      sp.start < sp.stop ∧ sp.stop ≤ vals.length := by
  intro sp hsp
  have h := thAux_mem (inRangeAt vals lower upper) (vals.length + 1) 0
    Option.none (by intro s hs; cases hs) sp hsp
  simp only [Option.getD] at h
  omega

theorem detectSpansThreshold_cov (vals : List ℚ) (lower upper : ℚ) :
    ∀ j, covered (DetectSpansThreshold vals lower upper) j ↔
      (j < vals.length ∧ lower ≤ vals.getD j 0 ∧ vals.getD j 0 ≤ upper) := by
  intro j
  have h := thAux_cov (inRangeAt vals lower upper) (vals.length + 1) 0
    Option.none j (by intro s hs; cases hs)
    (by intro t ht; exact inRangeAt_false_of_ge vals lower upper t (by omega))
  unfold DetectSpansThreshold
  rw [h]
  simp [inRangeAt]

/-- C3: with intervalMode = Threshold the detected (pre-filter) spans are
exactly the maximal runs of positions whose normalized sort value v satisfies
lowerNorm ≤ v ≤ upperNorm: the spans are well-formed, mutually disjoint and
ascending, a position is covered by some span exactly when it is in range, no
span can be extended left or right (maximality), a trailing in-range run
closes at the line length (stop ≤ length and right-maximality), the dispatch
divides both thresholds by 255, and the spec's concrete example holds:
normalized values [0.1, 0.5, 0.5, 0.9, 0.2] with lower 0.3 and upper 0.6
give exactly the span [1,3). -/
theorem threshold_spans_are_maximal_runs (vals : List ℚ) (lower upper : ℚ) :
    (∀ sp ∈ DetectSpansThreshold vals lower upper,
        sp.start < sp.stop ∧ sp.stop ≤ vals.length) ∧
    (∀ j, covered (DetectSpansThreshold vals lower upper) j ↔
        (j < vals.length ∧ lower ≤ vals.getD j 0 ∧ vals.getD j 0 ≤ upper)) ∧
    (DetectSpansThreshold vals lower upper).Pairwise
        (fun a b => a.stop ≤ b.start) ∧
    (∀ sp ∈ DetectSpansThreshold vals lower upper,
        sp.start = 0 ∨
          ¬(lower ≤ vals.getD (sp.start - 1) 0 ∧
            vals.getD (sp.start - 1) 0 ≤ upper)) ∧
    (∀ sp ∈ DetectSpansThreshold vals lower upper,
        sp.stop = vals.length ∨
          ¬(lower ≤ vals.getD sp.stop 0 ∧ vals.getD sp.stop 0 ≤ upper)) ∧
    (∀ (line : List Pixel) (p : PixelSortParams) (rowIndex : ℕ) (rng : Rng),
        p.intervalMode = IntervalMode.threshold →
        DetectSpansPre line p rowIndex rng =
          (DetectSpansThreshold
              (line.map (fun px => GetSortValueNorm px.r px.g px.b p.sortKey))
              ((p.lowerThreshold : ℚ) / 255) ((p.upperThreshold : ℚ) / 255),
            rng)) ∧
    DetectSpansThreshold [mkRat 1 10, mkRat 1 2, mkRat 1 2, mkRat 9 10, mkRat 1 5]
        (mkRat 3 10) (mkRat 3 5) = [⟨1, 3⟩] := by
  refine ⟨detectSpansThreshold_mem vals lower upper,
    detectSpansThreshold_cov vals lower upper,
    thAux_pairwise _ _ 0 Option.none (by intro s hs; cases hs),
    ?_, ?_, ?_, by decide⟩
  · intro sp hsp
    have h := thAux_maxLeft (inRangeAt vals lower upper) (vals.length + 1) 0
      Option.none (by intro _; exact Or.inl rfl) sp hsp
    rcases h with h | h | h
    · exact Or.inl h
    · simp only [inRangeAt, Bool.and_eq_false_iff, decide_eq_false_iff_not] at h
      rcases detectSpansThreshold_mem vals lower upper sp hsp with ⟨h1, h2⟩
      rcases h with h | h
      · rcases Nat.eq_zero_or_pos sp.start with h0 | h0
        · exact Or.inl h0
        · exact absurd (by omega : sp.start - 1 < vals.length) h
      · right
        intro ⟨ha, hb⟩
        rcases h with h | h
        · exact h ha
        · exact h hb
    · cases h
  · intro sp hsp
    have h := thAux_maxRight (inRangeAt vals lower upper) (vals.length + 1) 0
      Option.none sp hsp
    rcases detectSpansThreshold_mem vals lower upper sp hsp with ⟨h1, h2⟩
    rcases Nat.eq_or_lt_of_le h2 with he | he
    · exact Or.inl he
    · right
      simp only [inRangeAt, Bool.and_eq_false_iff, decide_eq_false_iff_not] at h
      intro ⟨ha, hb⟩
      rcases h with h | h
      · exact h he
      · rcases h with h | h
        · exact h ha
        · exact h hb
  · intro line p rowIndex rng hmode
    unfold DetectSpansPre
    rw [hmode]

/-- C4: the post-filter first drops every detected span shorter than spanMin
(for spanMin = 1 the source skips the filter pass, which is the same thing on
the never-empty detected spans), then, when spanMax > 0, splits each
remaining span into consecutive chunks of length at most spanMax where only
a chunk that ends the original span may be shorter, the chunks tile exactly
the original span (so chunks never merge across original span boundaries),
and the spec's concrete examples hold. -/
theorem postFilter_drop_then_split (spanMin spanMax : ℕ) (spans : List Span)
    (hmin : 1 ≤ spanMin) (hwf : ∀ sp ∈ spans, sp.start < sp.stop) :
    spanMinFilter spanMin spans =
        spans.filter (fun sp => decide (spanMin ≤ sp.stop - sp.start)) ∧
    postFilterSpans spanMin spanMax spans =
        spanMaxSplit spanMax
          (spans.filter (fun sp => decide (spanMin ≤ sp.stop - sp.start))) ∧
    (0 < spanMax → ∀ sp : Span, sp.start < sp.stop →
        (∀ c ∈ chunkSpan spanMax sp,
            sp.start ≤ c.start ∧ c.start < c.stop ∧ c.stop ≤ sp.stop ∧
              c.stop - c.start ≤ spanMax ∧
              (c.stop - c.start = spanMax ∨ c.stop = sp.stop)) ∧
          (chunkSpan spanMax sp).Chain' (fun a b => a.stop = b.start) ∧
          (∀ j, covered (chunkSpan spanMax sp) j ↔
              (sp.start ≤ j ∧ j < sp.stop))) ∧
    postFilterSpans 3 0 [⟨0, 2⟩, ⟨2, 7⟩] = [⟨2, 7⟩] ∧
    postFilterSpans 1 2 [⟨2, 7⟩] = [⟨2, 4⟩, ⟨4, 6⟩, ⟨6, 7⟩] := by
  have hflt : spanMinFilter spanMin spans =
      spans.filter (fun sp => decide (spanMin ≤ sp.stop - sp.start)) := by
    unfold spanMinFilter
    split
    · rfl
    · rename_i hle
      have h1 : spanMin = 1 := by omega
      subst h1
      symm
      rw [List.filter_eq_self]
      intro sp hsp
      have := hwf sp hsp
      simp
      omega
  refine ⟨hflt, by unfold postFilterSpans; rw [hflt], ?_, by decide, by decide⟩
  intro hmax sp hsp
  refine ⟨?_, ?_, ?_⟩
  · intro c hc
    have h1 := chunkAux_mem (show 1 ≤ spanMax by omega) _ sp.start sp.stop c hc
    have h2 := chunkAux_sizes (show 1 ≤ spanMax by omega) _ sp.start sp.stop
      (Nat.le_refl _) c hc
    omega
  · exact chunkAux_chain (by omega) _ sp.start sp.stop
  · intro j
    exact chunkAux_cover (by omega) _ sp.start sp.stop (Nat.le_refl _) j

theorem getD_set_ne {α : Type} (l : List α) (i idx : ℕ) (a d : α)
    (h : i ≠ idx) : (l.set i a).getD idx d = l.getD idx d := by
  rw [List.getD_eq_getElem?_getD, List.getD_eq_getElem?_getD,
    List.getElem?_set, if_neg h]

theorem getD_set_self {α : Type} (l : List α) (i : ℕ) (a d : α)
    (h : i < l.length) : (l.set i a).getD i d = a := by
  rw [List.getD_eq_getElem?_getD, List.getElem?_set, if_pos rfl, if_pos h]
  rfl

/-- The pixel value SortLine's write-back leaves at the target position when
the buffer there currently holds the pixel of `ln`. -/
def writtenPixel (sel : Option (List ℕ)) (start : ℕ) (ln : List Pixel)
    (i : ℕ) (pd : PixelData) : Pixel :=
  match sel with
  | Option.none => ⟨pd.r, pd.g, pd.b⟩
  | some m =>
      let s := m.getD (start + i) 0
      if s = 255 then ⟨pd.r, pd.g, pd.b⟩
      else if 0 < s then blendPixel pd (ln.getD (start + i) pixZero) s
      else ln.getD (start + i) pixZero

theorem writeOne_length (sel : Option (List ℕ)) (start : ℕ) (ln : List Pixel)
    (i : ℕ) (pd : PixelData) : (writeOne sel start ln i pd).length = ln.length := by
  unfold writeOne
  match sel with
  | Option.none => exact List.length_set ln _ _
  | some m =>
    simp only
    split
    · exact List.length_set ln _ _
    · split
      · exact List.length_set ln _ _
      · rfl

theorem writeOne_getD_ne (sel : Option (List ℕ)) (start : ℕ) (ln : List Pixel)
    (i : ℕ) (pd : PixelData) (idx : ℕ) (h : start + i ≠ idx) :
    (writeOne sel start ln i pd).getD idx pixZero = ln.getD idx pixZero := by
  unfold writeOne
  match sel with
  | Option.none => exact getD_set_ne ln _ idx _ _ h
  | some m =>
    simp only
    split
    · exact getD_set_ne ln _ idx _ _ h
    · split
      · exact getD_set_ne ln _ idx _ _ h
      · rfl

theorem writeOne_getD_self (sel : Option (List ℕ)) (start : ℕ)
    (ln : List Pixel) (i : ℕ) (pd : PixelData) (h : start + i < ln.length) :
    (writeOne sel start ln i pd).getD (start + i) pixZero =
      writtenPixel sel start ln i pd := by
  unfold writeOne writtenPixel
  match sel with
  | Option.none => exact getD_set_self ln _ _ _ h
  | some m =>
    simp only
    split
    · exact getD_set_self ln _ _ _ h
    · split
      · exact getD_set_self ln _ _ _ h
      · rfl

theorem writeBack_length (sel : Option (List ℕ)) (start : ℕ) :
    ∀ (pairs : List (ℕ × PixelData)) (line : List Pixel),
      (writeBack sel start pairs line).length = line.length := by
  intro pairs
  induction pairs with
  | nil => intro line; rfl
  | cons q rest ih =>
    intro line
    show (writeBack sel start rest (writeOne sel start line q.1 q.2)).length = _
    rw [ih, writeOne_length]

theorem writeBack_getD_notmem (sel : Option (List ℕ)) (start : ℕ) :
    ∀ (pairs : List (ℕ × PixelData)) (line : List Pixel) (idx : ℕ),
      (∀ q ∈ pairs, start + q.1 ≠ idx) →
      (writeBack sel start pairs line).getD idx pixZero =
        line.getD idx pixZero := by
  intro pairs
  induction pairs with
  | nil => intro line idx _; rfl
  | cons q rest ih =>
    intro line idx hq
    show (writeBack sel start rest (writeOne sel start line q.1 q.2)).getD idx pixZero = _
    rw [ih _ idx (fun q2 h2 => hq q2 (List.mem_cons_of_mem q h2)),
      writeOne_getD_ne _ _ _ _ _ idx (hq q (List.mem_cons_self q rest))]

theorem writeBack_getD_mem (sel : Option (List ℕ)) (start : ℕ) :
    ∀ (pairs : List (ℕ × PixelData)) (line : List Pixel) (i : ℕ)
      (pd : PixelData),
      (pairs.map Prod.fst).Nodup → (i, pd) ∈ pairs →
      start + i < line.length →
      (writeBack sel start pairs line).getD (start + i) pixZero =
        writtenPixel sel start line i pd := by
  intro pairs
  induction pairs with
  | nil => intro line i pd _ hmem; cases hmem
  | cons q rest ih =>
    intro line i pd hnd hmem hlt
    rw [List.map_cons] at hnd
    have hnd2 := List.nodup_cons.1 hnd
    rcases List.mem_cons.1 hmem with h | h
    · have hq : q = (i, pd) := h.symm
      subst hq
      show (writeBack sel start rest (writeOne sel start line i pd)).getD
        (start + i) pixZero = _
      rw [writeBack_getD_notmem sel start rest _ (start + i) ?_,
        writeOne_getD_self sel start line i pd hlt]
      intro q2 h2 heq
      have hq2 : q2.1 = i := by omega
      have : q2.1 ∈ rest.map Prod.fst := List.mem_map_of_mem Prod.fst h2
      exact hnd2.1 (hq2 ▸ this)
    · have hne : q.1 ≠ i := by
        intro he
        have : i ∈ rest.map Prod.fst := List.mem_map_of_mem Prod.fst h
        exact hnd2.1 (he ▸ this)
      show (writeBack sel start rest (writeOne sel start line q.1 q.2)).getD
        (start + i) pixZero = _
      rw [ih _ i pd hnd2.2 h (by rw [writeOne_length]; exact hlt)]
      unfold writtenPixel
      match sel with
      | Option.none => rfl
      | some m =>
        simp only
        have hln : (writeOne (some m) start line q.1 q.2).getD (start + i) pixZero =
            line.getD (start + i) pixZero :=
          writeOne_getD_ne _ _ _ _ _ _ (by omega)
        split
        · rfl
        · split
          · rw [hln]
          · rw [hln]

theorem spanInc_nodup (sel : Option (List ℕ)) (n start spanLen : ℕ) :
    (spanInc sel n start spanLen).Nodup := by
  unfold spanInc
  exact ((List.filter_sublist _).trans (List.takeWhile_sublist _)).nodup
    (List.nodup_range spanLen)

theorem spanInc_mem (sel : Option (List ℕ)) (n start spanLen : ℕ) :
    ∀ i ∈ spanInc sel n start spanLen,
      i < spanLen ∧ start + i < n ∧
        (∀ m, sel = some m → m.getD (start + i) 0 ≠ 0) := by
  intro i hi
  unfold spanInc at hi
  rcases List.mem_filter.1 hi with ⟨htk, hfl⟩
  have hrange : i ∈ List.range spanLen :=
    (List.takeWhile_sublist _).mem htk
  have hlt := List.mem_takeWhile_imp htk
  simp only [decide_eq_true_eq] at hlt
  refine ⟨List.mem_range.1 hrange, hlt, ?_⟩
  intro m hm
  subst hm
  simpa using hfl

theorem processSpan_short (sortFn : List PixelData → List PixelData)
    (p : PixelSortParams) (sel : Option (List ℕ)) (line : List Pixel)
    (sp : Span) (rng : Rng) (h : sp.stop - sp.start < 2) :
    processSpan sortFn p sel line sp rng = (line, rng) := by
  unfold processSpan
  rw [if_pos h]

theorem processSpanCore_untouched (sortFn : List PixelData → List PixelData)
    (p : PixelSortParams) (sel : Option (List ℕ)) (line : List Pixel)
    (sp : Span) (rng : Rng) (idx : ℕ)
    (hnw : ∀ i ∈ spanInc sel line.length sp.start (sp.stop - sp.start),
      sp.start + i ≠ idx) :
    (processSpanCore sortFn p sel line sp rng).1.getD idx pixZero =
      line.getD idx pixZero := by
  simp only [processSpanCore]
  split
  · rfl
  · apply writeBack_getD_notmem
    intro q hq
    exact hnw q.1 (List.mem_zip hq).1

theorem processSpan_falloff_skip (sortFn : List PixelData → List PixelData)
    (p : PixelSortParams) (sel : Option (List ℕ)) (line : List Pixel)
    (sp : Span) (rng : Rng) (h2 : 2 ≤ sp.stop - sp.start)
    (hf : 0 < p.falloff) (hd : (drawInt 0 99 rng).1 < (p.falloff : ℤ)) :
    processSpan sortFn p sel line sp rng = (line, (drawInt 0 99 rng).2) := by
  unfold processSpan
  rw [if_neg (by omega), if_pos hf]
  simp only
  rw [if_pos hd]

theorem processSpan_untouched (sortFn : List PixelData → List PixelData)
    (p : PixelSortParams) (sel : Option (List ℕ)) (line : List Pixel)
    (sp : Span) (rng : Rng) (idx : ℕ) (hout : ¬ sp.mem idx) :
    (processSpan sortFn p sel line sp rng).1.getD idx pixZero =
      line.getD idx pixZero := by
  have hw : ∀ rng2 : Rng,
      (processSpanCore sortFn p sel line sp rng2).1.getD idx pixZero =
        line.getD idx pixZero := by
    intro rng2
    apply processSpanCore_untouched
    intro i hi heq
    have h1 := spanInc_mem sel line.length sp.start (sp.stop - sp.start) i hi
    unfold Span.mem at hout
    omega
  unfold processSpan
  split
  · rfl
  · split
    · simp only
      split
      · rfl
      · exact hw _
    · exact hw rng

theorem processSpan_mask_zero (sortFn : List PixelData → List PixelData)
    (p : PixelSortParams) (m : List ℕ) (line : List Pixel)
    (sp : Span) (rng : Rng) (idx : ℕ) (hm : m.getD idx 0 = 0) :
    (processSpan sortFn p (some m) line sp rng).1.getD idx pixZero =
      line.getD idx pixZero := by
  have hw : ∀ rng2 : Rng,
      (processSpanCore sortFn p (some m) line sp rng2).1.getD idx pixZero =
        line.getD idx pixZero := by
    intro rng2
    apply processSpanCore_untouched
    intro i hi heq
    have h1 := spanInc_mem (some m) line.length sp.start (sp.stop - sp.start) i hi
    exact h1.2.2 m rfl (heq ▸ hm)
  unfold processSpan
  split
  · rfl
  · split
    · simp only
      split
      · rfl
      · exact hw _
    · exact hw rng

theorem tdiv_bound {d alpha : ℤ} (hd : 0 ≤ d) (ha0 : 0 ≤ alpha)
    (ha : alpha ≤ 255) : 0 ≤ (d * alpha).tdiv 255 ∧ (d * alpha).tdiv 255 ≤ d := by
  constructor
  · exact Int.tdiv_nonneg (mul_nonneg hd ha0) (by norm_num)
  · rw [Int.tdiv_eq_ediv (mul_nonneg hd ha0) (by norm_num)]
    calc d * alpha / 255 ≤ d * 255 / 255 :=
          Int.ediv_le_ediv (by norm_num) (mul_le_mul_of_nonneg_left ha hd)
      _ = d := Int.mul_ediv_cancel d (by norm_num)

/-- The truncating int blend always lands between the two operands, so the
BYTE cast (mod 256) is the identity and the C formula is exactly
orig + trunc((sorted - orig) * alpha / 255). -/
theorem blendChan_eq (sc oc alpha : ℕ) (hsc : sc ≤ 255) (hoc : oc ≤ 255)
    (ha : alpha ≤ 255) :
    ((blendChan sc oc alpha : ℕ) : ℤ) =
        (oc : ℤ) + (((sc : ℤ) - oc) * alpha).tdiv 255 ∧
      blendChan sc oc alpha ≤ 255 := by
  have hv : 0 ≤ (((sc : ℤ) - oc) * alpha).tdiv 255 + oc ∧
      (((sc : ℤ) - oc) * alpha).tdiv 255 + oc ≤ 255 := by
    rcases le_or_lt (oc : ℤ) sc with hc | hc
    · have h := tdiv_bound (show (0 : ℤ) ≤ (sc : ℤ) - oc by omega)
        (show (0 : ℤ) ≤ (alpha : ℤ) by positivity)
        (show ((alpha : ℕ) : ℤ) ≤ 255 by exact_mod_cast ha)
      omega
    · have h := tdiv_bound (show (0 : ℤ) ≤ (oc : ℤ) - sc by omega)
        (show (0 : ℤ) ≤ (alpha : ℤ) by positivity)
        (show ((alpha : ℕ) : ℤ) ≤ 255 by exact_mod_cast ha)
      have hne : ((sc : ℤ) - oc) * alpha = -(((oc : ℤ) - sc) * alpha) := by ring
      rw [hne, Int.neg_tdiv] at *
      omega
  unfold blendChan
  rw [Int.emod_eq_of_lt (by omega) (by omega)]
  constructor
  · rw [Int.toNat_of_nonneg (by omega)]
    omega
  · omega

theorem foldl_processSpan_untouched (sortFn : List PixelData → List PixelData)
    (p : PixelSortParams) (sel : Option (List ℕ)) (idx : ℕ) :
    ∀ (spans : List Span) (st : List Pixel × Rng),
      (∀ sp ∈ spans, ¬ sp.mem idx) →
      ((spans.foldl (fun st sp => processSpan sortFn p sel st.1 sp st.2)
          st).1.getD idx pixZero = st.1.getD idx pixZero) := by
  intro spans
  induction spans with
  | nil => intro st _; rfl
  | cons sp rest ih =>
    intro st hsp
    rw [List.foldl_cons]
    rw [ih _ (fun s h => hsp s (List.mem_cons_of_mem sp h))]
    exact processSpan_untouched sortFn p sel st.1 sp st.2 idx
      (hsp sp (List.mem_cons_self sp rest))

theorem foldl_processSpan_mask_zero (sortFn : List PixelData → List PixelData)
    (p : PixelSortParams) (m : List ℕ) (idx : ℕ) (hm : m.getD idx 0 = 0) :
    ∀ (spans : List Span) (st : List Pixel × Rng),
      ((spans.foldl (fun st sp => processSpan sortFn p (some m) st.1 sp st.2)
          st).1.getD idx pixZero = st.1.getD idx pixZero) := by
  intro spans
  induction spans with
  | nil => intro st; rfl
  | cons sp rest ih =>
    intro st
    rw [List.foldl_cons, ih]
    exact processSpan_mask_zero sortFn p m st.1 sp st.2 idx hm

theorem foldl_processSpan_short (sortFn : List PixelData → List PixelData)
    (p : PixelSortParams) (sel : Option (List ℕ)) :
    ∀ (spans : List Span) (st : List Pixel × Rng),
      (∀ sp ∈ spans, sp.stop - sp.start < 2) →
      spans.foldl (fun st sp => processSpan sortFn p sel st.1 sp st.2) st = st := by
  intro spans
  induction spans with
  | nil => intro st _; rfl
  | cons sp rest ih =>
    intro st hsp
    rw [List.foldl_cons,
      processSpan_short sortFn p sel st.1 sp st.2 (hsp sp (List.mem_cons_self sp rest))]
    exact ih st (fun s h => hsp s (List.mem_cons_of_mem sp h))

theorem processSpanCore_few (sortFn : List PixelData → List PixelData)
    (p : PixelSortParams) (sel : Option (List ℕ)) (line : List Pixel)
    (sp : Span) (rng : Rng)
    (hq : (spanInc sel line.length sp.start (sp.stop - sp.start)).length < 2) :
    processSpanCore sortFn p sel line sp rng = (line, rng) := by
  simp only [processSpanCore]
  rw [if_pos (by rwa [List.length_map])]

/-- A span in which fewer than 2 positions qualify (are within the line and
have a nonzero selection value) is skipped entirely: pixelsWork.size < 2
takes the continue at PIPixelSortMain.cpp line 204 and nothing is written. -/
theorem processSpan_few_qualifying (sortFn : List PixelData → List PixelData)
    (p : PixelSortParams) (sel : Option (List ℕ)) (line : List Pixel)
    (sp : Span) (rng : Rng)
    (hq : (spanInc sel line.length sp.start (sp.stop - sp.start)).length < 2) :
    (processSpan sortFn p sel line sp rng).1 = line := by
  unfold processSpan
  split
  · rfl
  · split
    · simp only
      split
      · rfl
      · rw [processSpanCore_few sortFn p sel line sp _ hq]
    · rw [processSpanCore_few sortFn p sel line sp rng hq]

/-- C10: SortLine writes only inside detected spans at positions with a
nonzero selection value: any position outside every span returned by
DetectSpans is unchanged, any position with selection value zero is
unchanged, lines of length 0 or 1 come back entirely unchanged (every
detected span is then shorter than 2 and skipped), spans shorter than 2
pixels are complete no-ops, a span skipped by the falloff draw leaves the
line untouched, and a span in which fewer than 2 positions qualify (lie
within the line with a nonzero selection value) leaves the line untouched
as well. -/
theorem sortLine_frame (sortFn : List PixelData → List PixelData)
    (line : List Pixel) (p : PixelSortParams) (sel : Option (List ℕ))
    (rowIndex : ℕ) (rng : Rng) :
    (∀ idx, (∀ sp ∈ (DetectSpans line p rowIndex rng).1, ¬ sp.mem idx) →
        (SortLine sortFn line p sel rowIndex rng).1.getD idx pixZero =
          line.getD idx pixZero) ∧
    (∀ idx m, sel = some m → m.getD idx 0 = 0 →
        (SortLine sortFn line p sel rowIndex rng).1.getD idx pixZero =
          line.getD idx pixZero) ∧
    (line.length ≤ 1 → (SortLine sortFn line p sel rowIndex rng).1 = line) ∧
    (∀ (line2 : List Pixel) (sp : Span) (rng2 : Rng), sp.stop - sp.start < 2 →
        processSpan sortFn p sel line2 sp rng2 = (line2, rng2)) ∧
    (∀ (line2 : List Pixel) (sp : Span) (rng2 : Rng), 2 ≤ sp.stop - sp.start →
        0 < p.falloff → (drawInt 0 99 rng2).1 < (p.falloff : ℤ) →
        (processSpan sortFn p sel line2 sp rng2).1 = line2) ∧
    (∀ (line2 : List Pixel) (sp : Span) (rng2 : Rng),
        (spanInc sel line2.length sp.start (sp.stop - sp.start)).length < 2 →
        (processSpan sortFn p sel line2 sp rng2).1 = line2) := by
  refine ⟨?_, ?_, ?_, ?_, ?_, ?_⟩
  · intro idx hsp
    simp only [SortLine]
    split
    · rfl
    · exact foldl_processSpan_untouched sortFn p sel idx _ _ hsp
  · intro idx m hsel hm
    subst hsel
    simp only [SortLine]
    split
    · rfl
    · exact foldl_processSpan_mask_zero sortFn p m idx hm _ _
  · intro hlen
    simp only [SortLine]
    split
    · rfl
    · rw [foldl_processSpan_short sortFn p sel _ _ ?_]
      intro sp hsp
      have h := detectSpans_mem line p rowIndex rng sp hsp
      omega
  · intro line2 sp rng2 h
    exact processSpan_short sortFn p sel line2 sp rng2 h
  · intro line2 sp rng2 h2 hf hd
    rw [processSpan_falloff_skip sortFn p sel line2 sp rng2 h2 hf hd]
  · intro line2 sp rng2 hq
    exact processSpan_few_qualifying sortFn p sel line2 sp rng2 hq

/-- C5: SortLine's write-back per qualifying position: with no selection
mask, or with mask value 255, the sorted pixel is written directly; with a
mask value strictly between 0 and 255 each output channel equals
original + (sorted - original) * mask / 255 with the division truncating
toward zero (C int division on the promoted bytes, the final BYTE cast being
the identity on the in-range result); and a position whose mask value is 0
is never written, so it stays byte-identical to the input. -/
theorem sortLine_writeback_blend
    (m : List ℕ) (start : ℕ) (pairs : List (ℕ × PixelData))
    (line : List Pixel) (i : ℕ) (pd : PixelData)
    (hnd : (pairs.map Prod.fst).Nodup) (hmem : (i, pd) ∈ pairs)
    (hlt : start + i < line.length) :
    ((writeBack Option.none start pairs line).getD (start + i) pixZero =
        ⟨pd.r, pd.g, pd.b⟩) ∧
    (m.getD (start + i) 0 = 255 →
      (writeBack (some m) start pairs line).getD (start + i) pixZero =
        ⟨pd.r, pd.g, pd.b⟩) ∧
    (0 < m.getD (start + i) 0 → m.getD (start + i) 0 < 255 →
      pd.r ≤ 255 → pd.g ≤ 255 → pd.b ≤ 255 →
      (line.getD (start + i) pixZero).r ≤ 255 →
      (line.getD (start + i) pixZero).g ≤ 255 →
      (line.getD (start + i) pixZero).b ≤ 255 →
      ((((writeBack (some m) start pairs line).getD (start + i) pixZero).r : ℤ) =
        ((line.getD (start + i) pixZero).r : ℤ) +
          (((pd.r : ℤ) - (line.getD (start + i) pixZero).r) *
            m.getD (start + i) 0).tdiv 255) ∧
      ((((writeBack (some m) start pairs line).getD (start + i) pixZero).g : ℤ) =
        ((line.getD (start + i) pixZero).g : ℤ) +
          (((pd.g : ℤ) - (line.getD (start + i) pixZero).g) *
            m.getD (start + i) 0).tdiv 255) ∧
      ((((writeBack (some m) start pairs line).getD (start + i) pixZero).b : ℤ) =
        ((line.getD (start + i) pixZero).b : ℤ) +
          (((pd.b : ℤ) - (line.getD (start + i) pixZero).b) *
            m.getD (start + i) 0).tdiv 255)) ∧
    (∀ (sortFn : List PixelData → List PixelData) (p : PixelSortParams)
        (sp : Span) (rng : Rng) (idx : ℕ),
      m.getD idx 0 = 0 →
      (processSpan sortFn p (some m) line sp rng).1.getD idx pixZero =
        line.getD idx pixZero) := by
  refine ⟨?_, ?_, ?_, ?_⟩
  · rw [writeBack_getD_mem Option.none start pairs line i pd hnd hmem hlt]
    rfl
  · intro h255
    rw [writeBack_getD_mem (some m) start pairs line i pd hnd hmem hlt]
    unfold writtenPixel
    simp only
    rw [if_pos h255]
  · intro hlo hhi hr hg hb hor hog hob
    rw [writeBack_getD_mem (some m) start pairs line i pd hnd hmem hlt]
    unfold writtenPixel
    simp only
    rw [if_neg (by omega), if_pos hlo]
    unfold blendPixel
    have hm255 : m.getD (start + i) 0 ≤ 255 := by omega
    refine ⟨?_, ?_, ?_⟩
    · exact (blendChan_eq pd.r _ _ hr hor hm255).1
    · exact (blendChan_eq pd.g _ _ hg hog hm255).1
    · exact (blendChan_eq pd.b _ _ hb hob hm255).1
  · intro sortFn p sp rng idx hm
    exact processSpan_mask_zero sortFn p m line sp rng idx hm

/-- A fixed engine stream used to instantiate theorems at concrete inputs. -/
def rng0 : Rng := ⟨fun _ => 0, 0⟩

/-- C2 counterexample: the claim that SortLine stable-sorts — that pixels
with equal sort values keep their original relative order — is not a
consequence of the code: SortLine calls std::sort (PIPixelSortMain.cpp line
207), whose contract (here SortSpec) fixes only that the result is a sorted
permutation and leaves tie order unspecified.  revSort is a conforming
std::sort (a stable merge sort applied to the reversed input) under which a
span of two distinct pixels with equal sort values comes back in reversed
order. -/
theorem sortLine_stable_sort_cex :
    ¬ (∀ sortFn, SortSpec sortFn → ∀ (p : PixelSortParams)
        (pixels : List PixelData), p.reverse = false →
        (spanSortedSeq sortFn p pixels).Sorted
            (fun a b => a.sortValue ≤ b.sortValue) ∧
          (∀ v : ℚ, (spanSortedSeq sortFn p pixels).filter
              (fun a => decide (a.sortValue = v)) =
            pixels.filter (fun a => decide (a.sortValue = v)))) := by
  intro hcl
  have h := hcl revSort sortSpec_revSort MakeDefaultParams
    [⟨10, 0, 0, 0⟩, ⟨20, 0, 0, 0⟩] rfl
  have e1 : spanSortedSeq revSort MakeDefaultParams
      [⟨10, 0, 0, 0⟩, ⟨20, 0, 0, 0⟩] = [⟨20, 0, 0, 0⟩, ⟨10, 0, 0, 0⟩] := by
    show (if MakeDefaultParams.reverse then _ else _) = _
    rw [if_neg (by decide)]
    show List.mergeSort _ pdLe = _
    rw [List.mergeSort_of_sorted (by decide)]
    rfl
  have h2 := h.2 0
  rw [e1] at h2
  exact absurd h2 (by decide)

theorem spanSortedSeq_props (sortFn : List PixelData → List PixelData)
    (hs : SortSpec sortFn) (p : PixelSortParams) (pixels : List PixelData) :
    (spanSortedSeq sortFn p pixels).Perm pixels ∧
    (p.reverse = false → (spanSortedSeq sortFn p pixels).Sorted
        (fun a b => a.sortValue ≤ b.sortValue)) ∧
    (p.reverse = true → (spanSortedSeq sortFn p pixels).Sorted
        (fun a b => b.sortValue ≤ a.sortValue)) := by
  unfold spanSortedSeq
  rcases hs pixels with ⟨hperm, hsort⟩
  refine ⟨?_, ?_, ?_⟩
  · split
    · exact (List.reverse_perm _).trans hperm
    · exact hperm
  · intro hrev
    rw [hrev]
    simpa using hsort
  · intro hrev
    rw [hrev]
    simp only [if_pos]
    exact (List.pairwise_reverse).2 hsort

/-- C2 amended: for every span processed by SortLine, the qualifying pixels
come back as a permutation sorted ascending by sort value — tie order is
whatever the std::sort implementation produced, not necessarily the input
order — and when reverse is set the sorted sequence is reversed (so it is
sorted descending). -/
theorem spanSortedSeq_sorted_perm (sortFn : List PixelData → List PixelData)
    (hs : SortSpec sortFn) (p : PixelSortParams) (pixels : List PixelData) :
    (spanSortedSeq sortFn p pixels).Perm pixels ∧
    (p.reverse = false → (spanSortedSeq sortFn p pixels).Sorted
        (fun a b => a.sortValue ≤ b.sortValue)) ∧
    (p.reverse = true → (spanSortedSeq sortFn p pixels).Sorted
        (fun a b => b.sortValue ≤ a.sortValue)) :=
  spanSortedSeq_props sortFn hs p pixels

/-- Witness for the amended C2 at a concrete conforming sort. -/
theorem spanSortedSeq_sorted_perm_witness :
    (spanSortedSeq refSort MakeDefaultParams
        [⟨1, 2, 3, mkRat 1 2⟩]).Perm [⟨1, 2, 3, mkRat 1 2⟩] ∧
    (MakeDefaultParams.reverse = false →
        (spanSortedSeq refSort MakeDefaultParams
          [⟨1, 2, 3, mkRat 1 2⟩]).Sorted
            (fun a b => a.sortValue ≤ b.sortValue)) ∧
    (MakeDefaultParams.reverse = true →
        (spanSortedSeq refSort MakeDefaultParams
          [⟨1, 2, 3, mkRat 1 2⟩]).Sorted
            (fun a b => b.sortValue ≤ a.sortValue)) :=
  spanSortedSeq_sorted_perm refSort sortSpec_refSort MakeDefaultParams _

/-- C8: for a processed span with jitter = 0, the sequence of pixels written
back (the post-sort sequence, in the order it is written to the ascending
qualifying positions) has non-decreasing sort values when reverse is unset
and non-increasing sort values when reverse is set; with jitter = 0 the
written sequence is exactly the sorted (possibly reversed) sequence and the
RNG is not consumed by the jitter pass; every written pixel is one of the
span's qualifying pixels. -/
theorem spanWrittenSeq_monotone (sortFn : List PixelData → List PixelData)
    (hs : SortSpec sortFn) (p : PixelSortParams) (pixels : List PixelData)
    (rng : Rng) (hj : p.jitter = 0) :
    (spanWrittenSeq sortFn p pixels rng).1 = spanSortedSeq sortFn p pixels ∧
    (spanWrittenSeq sortFn p pixels rng).2 = rng ∧
    (p.reverse = false →
      ((spanWrittenSeq sortFn p pixels rng).1.map
          (fun a => a.sortValue)).Sorted (· ≤ ·)) ∧
    (p.reverse = true →
      ((spanWrittenSeq sortFn p pixels rng).1.map
          (fun a => a.sortValue)).Sorted (fun a b => b ≤ a)) ∧
    (∀ pd ∈ (spanWrittenSeq sortFn p pixels rng).1, pd ∈ pixels) := by
  have hseq : spanWrittenSeq sortFn p pixels rng =
      (spanSortedSeq sortFn p pixels, rng) := by
    unfold spanWrittenSeq
    rw [if_neg (by omega)]
  rcases spanSortedSeq_props sortFn hs p pixels with ⟨hperm, hasc, hdesc⟩
  rw [hseq]
  refine ⟨rfl, rfl, ?_, ?_, ?_⟩
  · intro hrev
    exact (List.pairwise_map).2 (hasc hrev)
  · intro hrev
    exact (List.pairwise_map).2 (hdesc hrev)
  · intro pd hpd
    exact hperm.mem_iff.1 hpd

/-- Witness for C8 at a concrete conforming sort and concrete span. -/
theorem spanWrittenSeq_monotone_witness :
    (spanWrittenSeq refSort MakeDefaultParams
        [⟨1, 2, 3, mkRat 1 2⟩, ⟨4, 5, 6, mkRat 1 3⟩] rng0).1 =
      spanSortedSeq refSort MakeDefaultParams
        [⟨1, 2, 3, mkRat 1 2⟩, ⟨4, 5, 6, mkRat 1 3⟩] ∧
    (spanWrittenSeq refSort MakeDefaultParams
        [⟨1, 2, 3, mkRat 1 2⟩, ⟨4, 5, 6, mkRat 1 3⟩] rng0).2 = rng0 ∧
    (MakeDefaultParams.reverse = false →
      ((spanWrittenSeq refSort MakeDefaultParams
          [⟨1, 2, 3, mkRat 1 2⟩, ⟨4, 5, 6, mkRat 1 3⟩] rng0).1.map
          (fun a => a.sortValue)).Sorted (· ≤ ·)) ∧
    (MakeDefaultParams.reverse = true →
      ((spanWrittenSeq refSort MakeDefaultParams
          [⟨1, 2, 3, mkRat 1 2⟩, ⟨4, 5, 6, mkRat 1 3⟩] rng0).1.map
          (fun a => a.sortValue)).Sorted (fun a b => b ≤ a)) ∧
    (∀ pd ∈ (spanWrittenSeq refSort MakeDefaultParams
        [⟨1, 2, 3, mkRat 1 2⟩, ⟨4, 5, 6, mkRat 1 3⟩] rng0).1,
      pd ∈ [⟨1, 2, 3, mkRat 1 2⟩, ⟨4, 5, 6, mkRat 1 3⟩]) :=
  spanWrittenSeq_monotone refSort sortSpec_refSort MakeDefaultParams _ rng0 rfl

/-- The Waves span construction as the spec describes it, indexed by the
number k of spans already emitted (phase = rowIndex * 0.1 + 0.5 * k), except
that the span length truncates (floors) the wave value as the code does,
rather than rounding it. -/
noncomputable def wavesChunks (n waveLen rowIndex : ℕ) (i k : ℕ) : List Span :=
  if h : i < n then
    let e := min (i + wavesSpanLen waveLen ((rowIndex : ℝ) * 0.1 + 0.5 * k)) n
    ⟨i, e⟩ :: wavesChunks n waveLen rowIndex e (k + 1)
  else []
termination_by n - i
decreasing_by
  have h2 : 2 ≤ wavesSpanLen waveLen ((rowIndex : ℝ) * 0.1 + 0.5 * k) :=
    le_max_left _ _
  omega

theorem wavesAux_eq_chunks (n waveLen rowIndex : ℕ) :
    ∀ (i k : ℕ), wavesAux n waveLen i ((rowIndex : ℝ) * 0.1 + 0.5 * (k : ℝ)) =
      wavesChunks n waveLen rowIndex i k := by
  have H : ∀ (fuel i k : ℕ), n - i ≤ fuel →
      wavesAux n waveLen i ((rowIndex : ℝ) * 0.1 + 0.5 * (k : ℝ)) =
        wavesChunks n waveLen rowIndex i k := by
    intro fuel
    induction fuel with
    | zero =>
      intro i k hf
      rw [wavesAux, wavesChunks]
      rw [dif_neg (by omega), dif_neg (by omega)]
    | succ fuel ih =>
      intro i k hf
      rw [wavesAux, wavesChunks]
      by_cases hin : i < n
      · rw [dif_pos hin, dif_pos hin]
        have h2 : 2 ≤ wavesSpanLen waveLen ((rowIndex : ℝ) * 0.1 + 0.5 * k) :=
          le_max_left _ _
        have hph : (rowIndex : ℝ) * 0.1 + 0.5 * (k : ℝ) + 0.5 =
            (rowIndex : ℝ) * 0.1 + 0.5 * ((k + 1 : ℕ) : ℝ) := by
          push_cast
          ring
        simp only
        rw [hph, ih _ (k + 1) (by omega)]
      · rw [dif_neg hin, dif_neg hin]
  intro i k
  exact H (n - i) i k (Nat.le_refl _)

theorem wavesAux_chain (n waveLen : ℕ) :
    ∀ i phase, (wavesAux n waveLen i phase).Chain'
      (fun a b => a.stop = b.start) := by
  have H : ∀ fuel i phase, n - i ≤ fuel →
      (wavesAux n waveLen i phase).Chain' (fun a b => a.stop = b.start) := by
    intro fuel
    induction fuel with
    | zero =>
      intro i phase hf
      rw [wavesAux, dif_neg (by omega)]
      simp
    | succ fuel ih =>
      intro i phase hf
      rw [wavesAux]
      by_cases hin : i < n
      · rw [dif_pos hin]
        have h2 : 2 ≤ wavesSpanLen waveLen phase := le_max_left _ _
        refine List.chain'_cons'.2 ⟨?_, ih _ _ (by omega)⟩
        intro sp hsp
        rw [wavesAux] at hsp
        by_cases hin2 : min (i + wavesSpanLen waveLen phase) n < n
        · rw [dif_pos hin2] at hsp
          simp only [List.head?_cons, Option.mem_def, Option.some.injEq] at hsp
          subst hsp
          rfl
        · rw [dif_neg hin2] at hsp
          simp at hsp
      · rw [dif_neg hin]
        simp
  intro i phase
  exact H (n - i) i phase (Nat.le_refl _)

/-- C6 amended: Waves span detection emits consecutive spans starting at 0
(clipped to the line end) whose lengths are
max(2, trunc(wavelength * (0.5 + 0.5 * sin(phase)))) — the static_cast<int>
in the code truncates the wave value instead of rounding it as the spec
says — with wavelength = max(10, n / 8) (integer division), the phase of the
k-th emitted span being rowIndex * 0.1 + 0.5 * k, and no RNG draw occurs
(the dispatch returns the RNG untouched in Waves mode). -/
theorem wavesSpans_structure :
    (∀ n rowIndex : ℕ, DetectSpansWaves n rowIndex =
        wavesChunks n (max 10 (n / 8)) rowIndex 0 0) ∧
    (∀ n rowIndex : ℕ, (DetectSpansWaves n rowIndex).Chain'
        (fun a b => a.stop = b.start)) ∧
    (∀ n rowIndex : ℕ, ∀ sp ∈ (DetectSpansWaves n rowIndex).head?,
        sp.start = 0) ∧
    (∀ (line : List Pixel) (p : PixelSortParams) (rowIndex : ℕ) (rng : Rng),
        p.intervalMode = IntervalMode.waves →
        (DetectSpans line p rowIndex rng).2 = rng) := by
  refine ⟨?_, ?_, ?_, ?_⟩
  · intro n rowIndex
    unfold DetectSpansWaves
    split
    · rename_i h0
      rw [wavesChunks]
      rw [dif_neg (by omega)]
    · have h := wavesAux_eq_chunks n (max 10 (n / 8)) rowIndex 0 0
      have hph : (rowIndex : ℝ) * 0.1 + 0.5 * ((0 : ℕ) : ℝ) =
          (rowIndex : ℝ) * 0.1 := by
        push_cast
        ring
      rw [hph] at h
      exact h
  · intro n rowIndex
    unfold DetectSpansWaves
    split
    · simp
    · exact wavesAux_chain n _ 0 _
  · intro n rowIndex sp hsp
    unfold DetectSpansWaves at hsp
    split at hsp
    · simp at hsp
    · rename_i h0
      rw [wavesAux, dif_pos (by omega)] at hsp
      simp only [List.head?_cons, Option.mem_def, Option.some.injEq] at hsp
      subst hsp
      rfl
  · intro line p rowIndex rng hmode
    unfold DetectSpans DetectSpansPre
    rw [hmode]

theorem sin_tenth_bounds :
    (0.09975 : ℝ) < Real.sin 0.1 ∧ Real.sin 0.1 < 0.1 := by
  constructor
  · have h := Real.sin_gt_sub_cube (show (0 : ℝ) < 0.1 by norm_num)
      (show (0.1 : ℝ) ≤ 1 by norm_num)
    nlinarith
  · exact Real.sin_lt (by norm_num)

/-- C6 counterexample: the claim computes span lengths with round(·), the
code with static_cast<int> (truncation).  For a line of length 800 on row 1
the wavelength is 100 and the first phase is 1 * 0.1; the wave value
100 * (0.5 + 0.5 * sin 0.1) lies strictly between 54.9875 and 55, so the
code emits [0,54) as the first span while the claimed formula rounds the
length to 55. -/
theorem wavesSpans_round_cex :
    (DetectSpansWaves 800 1).head? = some ⟨0, 54⟩ ∧
    max 2 ((round ((100 : ℝ) * (0.5 + 0.5 * Real.sin ((1 : ℝ) * 0.1)))).toNat) = 55 := by
  have hb := sin_tenth_bounds
  have hfloor : (⌊(100 : ℝ) * (0.5 + 0.5 * Real.sin 0.1)⌋ : ℤ) = 54 := by
    rw [Int.floor_eq_iff]
    constructor
    · push_cast
      nlinarith [hb.1]
    · push_cast
      nlinarith [hb.2]
  constructor
  · have hlen : wavesSpanLen (max 10 (800 / 8)) (((1 : ℕ) : ℝ) * 0.1) = 54 := by
      unfold wavesSpanLen
      have hw : ((max 10 (800 / 8) : ℕ) : ℝ) = 100 := by norm_num
      have hph : (((1 : ℕ) : ℝ) * 0.1) = (0.1 : ℝ) := by norm_num
      rw [hw, hph, hfloor]
      rfl
    unfold DetectSpansWaves
    rw [if_neg (by omega), wavesAux, dif_pos (by omega)]
    simp only [List.head?_cons, Option.some.injEq, Span.mk.injEq]
    rw [hlen]
    exact ⟨trivial, by norm_num⟩
  · have hround : round ((100 : ℝ) * (0.5 + 0.5 * Real.sin ((1 : ℝ) * 0.1))) = (55 : ℤ) := by
      rw [one_mul, round_eq, Int.floor_eq_iff]
      constructor
      · push_cast
        nlinarith [hb.1]
      · push_cast
        nlinarith [hb.2]
    rw [hround]
    rfl

theorem getPix_grid (w h : ℕ) (f : ℕ → ℕ → Pixel) (x y : ℕ)
    (hx : x < w) (hy : y < h) :
    getPix ((List.range h).map (fun fy => (List.range w).map (fun fx => f fx fy)))
      x y = f x y := by
  unfold getPix
  simp [List.getD_eq_getElem?_getD, List.getElem?_map, List.getElem?_range hy,
    List.getElem?_range hx]

theorem truncR_range {x : ℝ} {w : ℕ} (h1 : (1 : ℝ) / 2 ≤ x)
    (h2 : x ≤ (w : ℝ) - 1 / 2) : 0 ≤ truncR x ∧ truncR x < (w : ℤ) := by
  unfold truncR
  rw [if_pos (by linarith)]
  constructor
  · exact Int.floor_nonneg.2 (by linarith)
  · rw [Int.floor_lt]
    push_cast
    linarith

theorem center_abs_le {fx W : ℕ} (h : fx < W) :
    |(fx : ℝ) - centerOf W| ≤ ((W : ℝ) - 1) / 2 := by
  unfold centerOf
  rw [abs_le]
  have hle : (fx : ℝ) ≤ (W : ℝ) - 1 := by
    have : (fx : ℝ) + 1 ≤ (W : ℝ) := by exact_mod_cast h
    linarith
  have hge : (0 : ℝ) ≤ (fx : ℝ) := by positivity
  constructor
  · linarith
  · linarith

/-- A destination pixel of the original rectangle always lands strictly
inside the rotated bounding-box canvas: the computed coordinate before
truncation lies in [1/2, SW - 1/2]. -/
theorem mapped_coord_bound {a b : ℝ} {W H SW : ℕ}
    (ha : |a| ≤ 1) (hb : |b| ≤ 1) (hab : 1 ≤ |a| + |b|)
    (hsw : (W : ℝ) * |a| + (H : ℝ) * |b| ≤ (SW : ℝ))
    {fx fy : ℕ} (hfx : fx < W) (hfy : fy < H) :
    (1 : ℝ) / 2 ≤ ((fx : ℝ) - centerOf W) * a + ((fy : ℝ) - centerOf H) * b +
        centerOf SW + 0.5 ∧
      ((fx : ℝ) - centerOf W) * a + ((fy : ℝ) - centerOf H) * b +
        centerOf SW + 0.5 ≤ (SW : ℝ) - 1 / 2 := by
  have hdx := center_abs_le hfx
  have hdy := center_abs_le hfy
  have habs : |((fx : ℝ) - centerOf W) * a + ((fy : ℝ) - centerOf H) * b| ≤
      ((W : ℝ) - 1) / 2 * |a| + ((H : ℝ) - 1) / 2 * |b| := by
    calc |((fx : ℝ) - centerOf W) * a + ((fy : ℝ) - centerOf H) * b| ≤
        |((fx : ℝ) - centerOf W) * a| + |((fy : ℝ) - centerOf H) * b| :=
          abs_add _ _
      _ = |(fx : ℝ) - centerOf W| * |a| + |(fy : ℝ) - centerOf H| * |b| := by
          rw [abs_mul, abs_mul]
      _ ≤ ((W : ℝ) - 1) / 2 * |a| + ((H : ℝ) - 1) / 2 * |b| :=
          add_le_add (mul_le_mul_of_nonneg_right hdx (abs_nonneg a))
            (mul_le_mul_of_nonneg_right hdy (abs_nonneg b))
  rw [abs_le] at habs
  have hB : ((W : ℝ) - 1) / 2 * |a| + ((H : ℝ) - 1) / 2 * |b| ≤
      ((SW : ℝ) - 1) / 2 := by nlinarith
  unfold centerOf at habs ⊢
  constructor
  · nlinarith
  · nlinarith

/-- C7: during the unrotate step, under the invariants of the rotation setup
(cosA and sinA of one angle, rotated-canvas sizes at least the rotated
bounding box, in-bounds destination pixel), the computed source coordinate
of every destination pixel is inside the rotated canvas.  Consequently the
claim holds: a destination pixel whose computed source falls outside the
canvas keeps the value the buffer held before the step (there is no such
pixel), and every destination pixel is written from a valid source mapping
(the zero-fill at line 847 is immediately overwritten everywhere). -/
theorem unrotate_only_mapped_written (c s : ℝ) (fullW fullH sortW sortH : ℕ)
    (rot pre : List (List Pixel)) (fx fy : ℕ)
    (hc : |c| ≤ 1) (hs : |s| ≤ 1) (hcs : 1 ≤ |c| + |s|)
    (hsw : (fullW : ℝ) * |c| + (fullH : ℝ) * |s| ≤ (sortW : ℝ))
    (hsh : (fullW : ℝ) * |s| + (fullH : ℝ) * |c| ≤ (sortH : ℝ))
    (hfx : fx < fullW) (hfy : fy < fullH) :
    inCanvas sortW sortH (unrotSrc c s fullW fullH sortW sortH fx fy) ∧
    (¬ inCanvas sortW sortH (unrotSrc c s fullW fullH sortW sortH fx fy) →
      getPix (unrotateStep c s fullW fullH sortW sortH rot pre) fx fy =
        getPix pre fx fy) ∧
    getPix (unrotateStep c s fullW fullH sortW sortH rot pre) fx fy =
      getPix rot (unrotSrc c s fullW fullH sortW sortH fx fy).1.toNat
        (unrotSrc c s fullW fullH sortW sortH fx fy).2.toNat := by
  have hin : inCanvas sortW sortH (unrotSrc c s fullW fullH sortW sortH fx fy) := by
    have h1 := mapped_coord_bound hc hs hcs hsw hfx hfy
    have hs2 : |(-s)| ≤ 1 := by rwa [abs_neg]
    have hcs2 : 1 ≤ |(-s)| + |c| := by rw [abs_neg]; linarith
    have hsh2 : (fullW : ℝ) * |(-s)| + (fullH : ℝ) * |c| ≤ (sortH : ℝ) := by
      rwa [abs_neg]
    have h2 := mapped_coord_bound hs2 hc hcs2 hsh2 hfx hfy
    have e2 : ((fx : ℝ) - centerOf fullW) * (-s) +
        ((fy : ℝ) - centerOf fullH) * c =
        -((fx : ℝ) - centerOf fullW) * s + ((fy : ℝ) - centerOf fullH) * c := by
      ring
    rw [e2] at h2
    unfold unrotSrc inCanvas
    simp only
    have hx := truncR_range h1.1 h1.2
    have hy := truncR_range h2.1 h2.2
    exact ⟨hx.1, hx.2, hy.1, hy.2⟩
  have hgrid : getPix (unrotateStep c s fullW fullH sortW sortH rot pre) fx fy =
      (if inCanvas sortW sortH (unrotSrc c s fullW fullH sortW sortH fx fy)
        then getPix rot (unrotSrc c s fullW fullH sortW sortH fx fy).1.toNat
          (unrotSrc c s fullW fullH sortW sortH fx fy).2.toNat
        else pixZero) := by
    unfold unrotateStep
    exact getPix_grid fullW fullH _ fx fy hfx hfy
  refine ⟨hin, ?_, ?_⟩
  · intro hnot
    exact absurd hin hnot
  · rw [hgrid, if_pos hin]

/-- Witness for C7 at a concrete setup (angle with cos 1, sin 0, 1x1
buffers). -/
theorem unrotate_only_mapped_written_witness :
    |(1 : ℝ)| ≤ 1 ∧ (1 : ℝ) * |(1 : ℝ)| + (1 : ℝ) * |(0 : ℝ)| ≤ 1 ∧
      inCanvas 1 1 (unrotSrc 1 0 1 1 1 1 0 0) :=
  ⟨by norm_num, by norm_num,
    (unrotate_only_mapped_written 1 0 1 1 1 1 [[⟨1, 2, 3⟩]] [[⟨9, 8, 7⟩]] 0 0
      (by norm_num) (by norm_num) (by norm_num) (by norm_num) (by norm_num)
      (by norm_num) (by norm_num)).1⟩

/-- C1: the embedded full pass — gather-as-given image, optional rotation,
row or column sorting against the shared RNG stream, optional unrotation and
deferred selection blend — is a pure function of the seed stream, the
Params, the input buffer and the mask: two runs on equal inputs produce
byte-identical output buffers. -/
theorem fullPass_deterministic (sortFn : List PixelData → List PixelData)
    (p p2 : PixelSortParams) (img img2 : List (List Pixel))
    (mask mask2 : Option (List (List ℕ))) (rng rng2 : Rng)
    (hp : p = p2) (hi : img = img2) (hm : mask = mask2) (hr : rng = rng2) :
    fullPass sortFn p img mask rng = fullPass sortFn p2 img2 mask2 rng2 := by
  subst hp
  subst hi
  subst hm
  subst hr
  rfl

/-- Witness for C1: two runs at a concrete seed, Params and buffer. -/
theorem fullPass_deterministic_witness :
    fullPass refSort MakeDefaultParams [[⟨1, 2, 3⟩]] Option.none rng0 =
      fullPass refSort MakeDefaultParams [[⟨1, 2, 3⟩]] Option.none rng0 :=
  fullPass_deterministic refSort MakeDefaultParams MakeDefaultParams
    [[⟨1, 2, 3⟩]] [[⟨1, 2, 3⟩]] Option.none Option.none rng0 rng0
    rfl rfl rfl rfl

/-- Witness for C4: the post-filter applied to the spec's example inputs. -/
theorem postFilter_drop_then_split_witness :
    (1 : ℕ) ≤ 3 ∧ (∀ sp ∈ ([⟨0, 2⟩, ⟨2, 7⟩] : List Span), sp.start < sp.stop) ∧
      postFilterSpans 3 0 [⟨0, 2⟩, ⟨2, 7⟩] = [⟨2, 7⟩] :=
  ⟨by norm_num, by decide,
    (postFilter_drop_then_split 3 0 [⟨0, 2⟩, ⟨2, 7⟩] (by norm_num)
      (by decide)).2.2.2.1⟩

/-- Witness for C5: a direct no-mask write at a concrete span position. -/
theorem sortLine_writeback_blend_witness :
    (0 : ℕ) + 0 < ([⟨10, 20, 30⟩] : List Pixel).length ∧
      (writeBack Option.none 0 [(0, ⟨100, 50, 25, (0 : ℚ)⟩)]
          [⟨10, 20, 30⟩]).getD (0 + 0) pixZero = ⟨100, 50, 25⟩ :=
  ⟨by decide,
    (sortLine_writeback_blend [200] 0 [(0, ⟨100, 50, 25, (0 : ℚ)⟩)]
      [⟨10, 20, 30⟩] 0 ⟨100, 50, 25, (0 : ℚ)⟩ (by decide) (by decide)
      (by decide)).1⟩

end PixelSort
